import Mathlib

/-!
# Verification of the `preprocess` WARC / compressed-stream tooling

This development shallowly embeds the core of the repository:

* `util/compress.cc` — the chained multi-codec reader (`ReadCompressed`,
  `StreamCompressed`, `ReadFactory`, `Skip`, `SkipTo`) and the gzip
  output encoder (`GZCompress`);
* `preprocess/warc.cc` — the WARC record parser (`WARCReader::Read`,
  `SkipRecord`, `SkipSection`);
* the rolling output sink (`SplitFileStream`) of the parallel driver.

Bytes are modelled as `Nat` (values 0..255 in practice; none of the proofs
need the upper bound).  Streams and buffers are `List Nat`.  `size_t`
arithmetic that can wrap is made explicit with `% 2^64`.  Fallible code
returns `Except`/`Option`.  Loops are modelled with an explicit fuel
parameter plus a wrapper that supplies a sufficient fuel, so that every
definition is executable by the kernel; sufficiency is proved where a loop
in the source terminates (and refuted where it does not).

The decompression codec bodies (zlib / bzlib / lzma) are external
libraries, not part of this repository; where a claim depends on them they
are modelled from the specification, as flagged in the doc comments.
-/

namespace PreprocessModel

/-! ## Byte-list utilities -/

/-- ASCII bytes of a string (all inputs in this development are ASCII). -/
def strBytes (s : String) : List Nat :=
  s.data.map Char.toNat

/-- `2^64`, the modulus of `size_t`/`uint64_t` arithmetic. -/
def kSizeT : Nat := 2 ^ 64

/-- The half-open slice `[a, b)` of a list. -/
def slice (l : List Nat) (a b : Nat) : List Nat :=
  (l.drop a).take (b - a)

/-- Index of the first newline byte (10) in `l`, if any. -/
def findNL : List Nat → Option Nat
  | [] => none
  | b :: rest => if b = 10 then some 0 else (findNL rest).map (· + 1)

/-- Index of the first newline at position ≥ `i` (`std::string::find('\n', i)`). -/
def findFrom (l : List Nat) (i : Nat) : Option Nat :=
  (findNL (l.drop i)).map (i + ·)

/-- `memmem`: index of the first occurrence of `pat` in `l`. -/
def findSub (pat : List Nat) : List Nat → Option Nat
  | [] => if pat.isPrefixOf ([] : List Nat) then some 0 else none
  | b :: rest =>
    if pat.isPrefixOf (b :: rest) then some 0
    else (findSub pat rest).map (· + 1)

/-! ## `SplitFileStream` (parallel driver output sink)

Model of the rolling byte-bounded sink.  A file's content is kept as the
list of write calls that landed in it, so "a write lands entirely in
exactly one file" is directly observable. -/

structure SplitFileStream where
  bytesLimit : Nat
  fileN : Nat
  fileOpen : Bool
  bytesWritten : Nat
  files : List (List (List Nat))
  deriving DecidableEq, Repr

/-- `SplitFileStream(tpl, bytes_limit)`: no file opened yet
(`file_fd_.get() == -1`), counters at zero. -/
def SplitFileStream.init (limit : Nat) : SplitFileStream :=
  ⟨limit, 0, false, 0, []⟩

/-- `OpenNext`: open file `file_n_++`, reset `bytes_written_` to zero. -/
def SplitFileStream.openNext (s : SplitFileStream) : SplitFileStream :=
  { s with fileN := s.fileN + 1, fileOpen := true, bytesWritten := 0,
           files := s.files ++ [[]] }

/-- Append a write chunk to the most recently opened file. -/
def appendLast (files : List (List (List Nat))) (d : List Nat) :
    List (List (List Nat)) :=
  files.dropLast ++ [files.getLastD [] ++ [d]]

/-- `SplitFileStream::write(data, length)`: roll on first write or when the
write would push the current file over the limit, then issue the write. -/
def SplitFileStream.write (s : SplitFileStream) (data : List Nat) :
    SplitFileStream :=
  let s' := if s.fileOpen = false ∨ s.bytesWritten + data.length > s.bytesLimit
            then s.openNext else s
  { s' with files := appendLast s'.files data,
            bytesWritten := s'.bytesWritten + data.length }

/-- Run a sequence of writes against a fresh sink. -/
def runWrites (limit : Nat) (ws : List (List Nat)) : SplitFileStream :=
  ws.foldl SplitFileStream.write (SplitFileStream.init limit)

/-- Spec-side greedy grouping: accumulate writes into the current file,
starting a new file exactly when the accumulated bytes plus the incoming
write would exceed the limit. -/
def greedyGo (limit : Nat) (cur : List (List Nat)) (curBytes : Nat) :
    List (List Nat) → List (List (List Nat))
  | [] => [cur]
  | w :: ws =>
    if curBytes + w.length > limit then
      cur :: greedyGo limit [w] w.length ws
    else
      greedyGo limit (cur ++ [w]) (curBytes + w.length) ws

/-- Spec-side grouping of a whole write sequence (first write always opens
a file). -/
def greedySplit (limit : Nat) : List (List Nat) → List (List (List Nat))
  | [] => []
  | w :: ws => greedyGo limit [w] w.length ws

/-! ## `GZCompress` (output-side gzip encoding)

The driver loop of `util::GZCompress` is repository code; the compression
core (`deflate`) is zlib's.  `GZipWrite` below is *modelled from the spec*
(§4.5: "encodes a byte slice into a single gzip member"): the stream
object holds pending encoded bytes, `Process` consumes the input view and
flushes into the caller's output window, `Finish` emits a terminator and
reports `STREAM_END` once everything is flushed.  The member format used
by the model is `[0x1f, 0x8b]` header, one `[1, b]` block per payload
byte, and a `[0]` terminator; `gzipDecode` is its spec-side inverse. -/

/-- One encoded block per payload byte. -/
def encBytes : List Nat → List Nat
  | [] => []
  | b :: rest => 1 :: b :: encBytes rest

/-- Modelled from the spec: zlib deflate stream state as seen through
`GZipWrite`.  `written` is the output prefix `[to.data(), next_out)`,
`outLen` the current output buffer size (`to.size()`), so
`avail_out = outLen - written.length`. -/
structure GZipWrite where
  pending : List Nat
  closed : Bool
  availIn : List Nat
  written : List Nat
  outLen : Nat
  deriving DecidableEq, Repr

/-- Move as many pending bytes as the output window allows. -/
def flushPending (s : GZipWrite) : GZipWrite :=
  let k := min s.pending.length (s.outLen - s.written.length)
  { s with written := s.written ++ s.pending.take k, pending := s.pending.drop k }

/-- Modelled from the spec: `deflate(Z_NO_FLUSH)` — consume the input
view, queueing its encoding, and write into the output window. -/
def GZipWrite.Process (s : GZipWrite) : GZipWrite :=
  flushPending { s with pending := s.pending ++ encBytes s.availIn, availIn := [] }

/-- Modelled from the spec: `deflate(Z_FINISH)` — emit the member
terminator once, keep flushing; `true` = `Z_STREAM_END`. -/
def GZipWrite.Finish (s : GZipWrite) : GZipWrite × Bool :=
  let s1 := if s.closed then s else { s with pending := s.pending ++ [0], closed := true }
  let s2 := flushPending s1
  (s2, s2.pending.isEmpty)

/-- `EnsureOutput`: grow the output string by 4 KiB when fewer than 6
bytes of window remain, re-aiming the stream at the old write position. -/
def EnsureOutput (s : GZipWrite) : GZipWrite :=
  if s.outLen - s.written.length < 6 then { s with outLen := s.outLen + 4096 } else s

/-- The `while (writer.Stream().avail_in)` loop of `GZCompress`. -/
def processLoopF : Nat → GZipWrite → Option GZipWrite
  | 0, _ => none
  | fuel + 1, s =>
    if s.availIn.isEmpty then some s
    else processLoopF fuel (EnsureOutput s).Process

/-- The `do { EnsureOutput } while (!writer.Finish())` loop of `GZCompress`. -/
def finishLoopF : Nat → GZipWrite → Option GZipWrite
  | 0, _ => none
  | fuel + 1, s =>
    let p := (EnsureOutput s).Finish
    if p.2 then some p.1 else finishLoopF fuel p.1

/-- `util::GZCompress(from, to, level)`.  The final `resize` returns the
prefix written so far.  (The compression `level` only affects zlib's
internal choices, which the model abstracts away.) -/
def GZCompress (input : List Nat) (level : Nat) : List Nat :=
  let _ := level
  let w0 : GZipWrite :=
    { pending := [31, 139], closed := false, availIn := input,
      written := [], outLen := 4096 }
  match processLoopF (input.length + 1) w0 with
  | none => []
  | some w1 =>
    match finishLoopF (w1.pending.length + (encBytes w1.availIn).length + 3) w1 with
    | none => []
    | some w2 => w2.written

/-- Spec-side gzip decoding of the model member format. -/
def decBody : List Nat → Option (List Nat)
  | [] => none
  | 0 :: rest => if rest.isEmpty then some [] else none
  | 1 :: b :: rest => (decBody rest).map (b :: ·)
  | _ => none

/-- Spec-side `gzip_decode`. -/
def gzipDecode : List Nat → Option (List Nat)
  | 31 :: 139 :: rest => decBody rest
  | _ => none

/-! ## `WARCReader` (preprocess/warc.cc)

The underlying `util::ReadCompressed` is modelled as a pure byte source:
`Read(dst, n)` yields the next `min(n, remaining)` bytes.  (For the WARC
claims the source is uncompressed data; short reads of `PartialRead` are
refined deterministically.)  The reader state threaded through is the
pair `(overhang, src)`.  `size_t` wrap-around is written out explicitly
where the source can wrap (`SkipRecord`'s final `skipped` adjustment,
`total_length`). -/

/-- Errors escaping `WARCReader::Read`. -/
inductive RErr where
  | eof
  | fault
  deriving DecidableEq, Repr

/-- `WARCReader::Record`. -/
structure Record where
  skipped : Nat
  str : List Nat
  deriving DecidableEq, Repr

/-- Which branch of `Read` produced a successful record (model
instrumentation; `warcRead` erases it). -/
inductive RTag where
  | normal
  | oversize
  | resync
  deriving DecidableEq, Repr

/-- Result of `HeaderReader::Line`. -/
inductive LineResult where
  | line (l : List Nat) (out : List Nat) (src : List Nat) (consumed : Nat)
  | eofOk
  | eofErr
  deriving DecidableEq, Repr

/-- Remove a trailing carriage return, as `Line` does. -/
def stripCR (raw : List Nat) : List Nat :=
  if raw.getLast? = some 13 then raw.dropLast else raw

/-- `HeaderReader::Line` with the `ReadMore` refill loop: search `out`
for a newline from `start`; refill in 4096-byte chunks on miss.  At EOF,
`ReadMore` returns false on an empty buffer and throws
`EndOfFileException` otherwise. -/
def hlineF : Nat → List Nat → List Nat → Nat → Nat → Option LineResult
  | 0, _, _, _, _ => none
  | fuel + 1, out, src, consumed, start =>
    match findFrom out start with
    | some n => some (.line (stripCR (slice out consumed n)) out src (n + 1))
    | none =>
      if src.isEmpty then
        if out.isEmpty then some .eofOk else some .eofErr
      else hlineF fuel (out ++ src.take 4096) (src.drop 4096) consumed out.length

/-- Total wrapper for `hlineF` (fuel `src.length + 1` always suffices). -/
def hline (out src : List Nat) (consumed start : Nat) : LineResult :=
  (hlineF (src.length + 1) out src consumed start).getD .eofErr

/-- `tolower` on a byte. -/
def toLower (b : Nat) : Nat := if 65 ≤ b ∧ b ≤ 90 then b + 32 else b

/-- Lower-cased bytes of `"Content-Length:"`. -/
def contentLengthBytes : List Nat :=
  [99, 111, 110, 116, 101, 110, 116, 45, 108, 101, 110, 103, 116, 104, 58]

/-- The `strncasecmp(line, "Content-Length:", 15)` guard together with the
`line.size() >= 15` check. -/
def clMatch (l : List Nat) : Bool :=
  decide (15 ≤ l.length) && decide ((l.take 15).map toLower = contentLengthBytes)

/-- `isspace` bytes seen by `strtoll`. -/
def isSpaceByte (b : Nat) : Bool := decide (b = 32 ∨ (9 ≤ b ∧ b ≤ 13))

/-- Consume decimal digits, accumulating the value. -/
def parseDigits : List Nat → Nat → Nat × List Nat
  | [], acc => (acc, [])
  | b :: rest, acc =>
    if 48 ≤ b ∧ b ≤ 57 then parseDigits rest (acc * 10 + (b - 48))
    else (acc, b :: rest)

/-- `strtoll(l, &end, 10)`: value and the index `end - l` (0 when no
conversion is performed, as the C function rewinds `end` to `nptr`). -/
def strtoll (l : List Nat) : Int × Nat :=
  let l1 := l.dropWhile isSpaceByte
  match l1 with
  | 45 :: rest =>
    let p := parseDigits rest 0
    if p.2.length = rest.length then ((0 : Int), 0)
    else (-(p.1 : Int), l.length - p.2.length)
  | 43 :: rest =>
    let p := parseDigits rest 0
    if p.2.length = rest.length then ((0 : Int), 0)
    else ((p.1 : Int), l.length - p.2.length)
  | _ =>
    let p := parseDigits l1 0
    if p.2.length = l1.length then ((0 : Int), 0)
    else ((p.1 : Int), l.length - p.2.length)

/-- Parse the value of a matched `Content-Length:` line:
`strtoll(line.data() + 15, &end, 10)` with the `end == line.end` check;
the `long long` value is assigned to a `size_t`. -/
def clParse (l : List Nat) : Option Nat :=
  let p := strtoll (l.drop 15)
  if p.2 = l.length - 15 then some ((p.1 % ((kSizeT : Nat) : Int)).toNat) else none

/-- Result of the header-parsing loop of `WARCReader::Read`. -/
inductive HeadResult where
  | done (out src : List Nat) (consumed : Nat) (seen : Bool) (len : Nat)
  | warcErr (out src : List Nat)
  | eofErr
  deriving DecidableEq, Repr

/-- The `while (!line.empty())` header loop: read lines until the blank
line, recording the unique `Content-Length`.  A duplicate header or a
parse failure is a `WARCReadException` (`warcErr`, keeping the scratch
state for `SkipRecord`); EOF inside the headers is an
`EndOfFileException`. -/
def headerLoopF : Nat → List Nat → List Nat → Nat → Bool → Nat → Option HeadResult
  | 0, _, _, _, _, _ => none
  | fuel + 1, out, src, consumed, seen, len =>
    match hline out src consumed consumed with
    | .eofOk => some .eofErr
    | .eofErr => some .eofErr
    | .line l out' src' consumed' =>
      if l.isEmpty then some (.done out' src' consumed' seen len)
      else if clMatch l then
        if seen then some (.warcErr out' src')
        else
          match clParse l with
          | some v => headerLoopF fuel out' src' consumed' true v
          | none => some (.warcErr out' src')
      else headerLoopF fuel out' src' consumed' seen len

/-- Total wrapper for `headerLoopF`. -/
def headerLoop (out src : List Nat) (consumed : Nat) (seen : Bool) (len : Nat) :
    HeadResult :=
  (headerLoopF (out.length + src.length + 2) out src consumed seen len).getD .eofErr

/-- The 8 bytes of `kHeader` = `"WARC/1.0"`. -/
def warcHeaderBytes : List Nat := [87, 65, 82, 67, 47, 49, 46, 48]

/-- The scan loop of `WARCReader::SkipRecord`: `memmem` for the next
`WARC/1.0`; on miss keep the last 8 bytes and refill from the reader.
The final `skipped` adjustment of the source underflows `size_t`
(`out.str` is cleared first), so it adds the match offset mod `2^64`. -/
def skipRecordLoopF : Nat → List Nat → List Nat → Nat →
    Option (Except RErr (Nat × List Nat × List Nat))
  | 0, _, _, _ => none
  | fuel + 1, b, src, skipped =>
    match findSub warcHeaderBytes b with
    | some pos => some (.ok ((skipped + pos) % kSizeT, b.drop pos, src))
    | none =>
      if b.length < 8 then some (.error .fault)
      else
        let got := min (b.length - 8) src.length
        if got = 0 then some (.error .eof)
        else skipRecordLoopF fuel (b.drop (b.length - 8) ++ src.take got)
          (src.drop got) ((skipped + got) % kSizeT)

/-- `WARCReader::SkipRecord`.  `out.str.substr(1)` on an empty scratch
throws `std::out_of_range`; the debug `assert(out.str.size() > 8)` is
compiled out in release builds, and the buffer juggling below 9 bytes is
out-of-bounds (`fault`).  Returns the skip record, the new `overhang_`,
and the remaining source. -/
def skipRecord (out src : List Nat) : Except RErr (Record × List Nat × List Nat) :=
  if out.isEmpty then .error .fault
  else
    match skipRecordLoopF (src.length + 2) (out.drop 1) src 0 with
    | none => .error .fault
    | some (.error e) => .error e
    | some (.ok (skipped, overhang, src')) => .ok (⟨skipped, []⟩, overhang, src')

/-- The discard loop of the oversize branch: read into the 32768-byte
scratch without storing until `start` reaches `total_length`. -/
def readDiscardF : Nat → Nat → Nat → List Nat → Option (Except RErr (List Nat))
  | 0, _, _, _ => none
  | fuel + 1, start, total, src =>
    if start = total then some (.ok src)
    else
      let expect := min 32768 (total - start)
      let got := min expect src.length
      if got = 0 then some (.error .eof)
      else readDiscardF fuel (start + got) total (src.drop got)

/-- The read loop of the exact-size branch: extend the scratch until it
holds `total_length` bytes. -/
def readExactF : Nat → List Nat → Nat → List Nat →
    Option (Except RErr (List Nat × List Nat))
  | 0, _, _, _ => none
  | fuel + 1, cur, total, src =>
    if cur.length = total then some (.ok (cur, src))
    else
      let got := min (total - cur.length) src.length
      if got = 0 then some (.error .eof)
      else readExactF fuel (cur ++ src.take got) total (src.drop got)

/-- The trailing `CRLF CRLF` check; reading 4 bytes before the end of a
record shorter than 4 bytes is out of bounds (`none` = fault). -/
def checkCRLF (record : List Nat) : Option Bool :=
  if record.length < 4 then none
  else some (decide (record.drop (record.length - 4) = [13, 10, 13, 10]))

/-- Lift a `SkipRecord` outcome into a `Read` result. -/
def mapSkip : Except RErr (Record × List Nat × List Nat) →
    Except RErr (Option (Record × RTag × List Nat × List Nat))
  | .error e => .error e
  | .ok (rec, over, src') => .ok (some (rec, .resync, over, src'))

/-- `WARCReader::Read(out, size_limit)` over an uncompressed source, with
the branch tag exposed.  Returns `none` for `return false` (clean EOF),
the record plus the successor `(overhang, src)` state on success, and an
error for exceptions that escape `Read` (`EndOfFileException`, UB). -/
def warcReadT (overhang src : List Nat) (sizeLimit : Nat) :
    Except RErr (Option (Record × RTag × List Nat × List Nat)) :=
  match hline overhang src 0 0 with
  | .eofOk => .ok none
  | .eofErr => .error .eof
  | .line l out1 src1 consumed1 =>
    if l ≠ warcHeaderBytes then mapSkip (skipRecord out1 src1)
    else
      match headerLoop out1 src1 consumed1 false 0 with
      | .eofErr => .error .eof
      | .warcErr out2 src2 => mapSkip (skipRecord out2 src2)
      | .done out2 src2 consumed2 seen len =>
        if seen = false then mapSkip (skipRecord out2 src2)
        else
          let total := (consumed2 + len + 4) % kSizeT
          if total < out2.length then
            let record := out2.take total
            let over := out2.drop total
            match checkCRLF record with
            | none => .error .fault
            | some true => .ok (some (⟨0, record⟩, .normal, over, src2))
            | some false => mapSkip (skipRecord record src2)
          else if total > sizeLimit then
            match readDiscardF (total + 1) out2.length total src2 with
            | none => .error .fault
            | some (.error e) => .error e
            | some (.ok src3) => .ok (some (⟨total, []⟩, .oversize, [], src3))
          else
            match readExactF (total + 1) out2 total src2 with
            | none => .error .fault
            | some (.error e) => .error e
            | some (.ok (record, src3)) =>
              match checkCRLF record with
              | none => .error .fault
              | some true => .ok (some (⟨0, record⟩, .normal, [], src3))
              | some false => mapSkip (skipRecord record src3)

/-- `WARCReader::Read` without the model tag. -/
def warcRead (overhang src : List Nat) (sizeLimit : Nat) :
    Except RErr (Option (Record × List Nat × List Nat)) :=
  match warcReadT overhang src sizeLimit with
  | .error e => .error e
  | .ok none => .ok none
  | .ok (some (rec, _, over, src')) => .ok (some (rec, over, src'))

/-- Repeated `Read` calls until `false`, collecting the records. -/
def warcList : Nat → List Nat → List Nat → Nat → Option (Except RErr (List Record))
  | 0, _, _, _ => none
  | fuel + 1, overhang, src, sizeLimit =>
    match warcRead overhang src sizeLimit with
    | .error e => some (.error e)
    | .ok none => some (.ok [])
    | .ok (some (rec, over, src')) =>
      match warcList fuel over src' sizeLimit with
      | none => none
      | some (.error e) => some (.error e)
      | some (.ok recs) => some (.ok (rec :: recs))

/-! ### Well-formed WARC records -/

/-- An abstract WARC 1.0 record: the header lines between `WARC/1.0` and
the blank line, and the body. -/
structure WRecord where
  headers : List (List Nat)
  body : List Nat

/-- A header line on the wire: `line CRLF`. -/
def lineBytes (l : List Nat) : List Nat := l ++ [13, 10]

/-- Serialized header lines. -/
def hdrLinesBytes (lines : List (List Nat)) : List Nat :=
  (lines.map lineBytes).flatten

/-- The full header block: `WARC/1.0 CRLF`, header lines, blank line. -/
def hdrBytes (r : WRecord) : List Nat :=
  (warcHeaderBytes ++ [13, 10]) ++ hdrLinesBytes r.headers ++ [13, 10]

/-- A record on the wire: headers, body, trailing `CRLF CRLF`. -/
def serRecord (r : WRecord) : List Nat :=
  hdrBytes r ++ r.body ++ [13, 10, 13, 10]

/-- `total_length` as `Read` computes it for a well-formed record. -/
def totalLen (r : WRecord) : Nat := (hdrBytes r).length + r.body.length + 4

/-- A header line that does not confuse the line reader: non-empty, no
newline, no carriage return. -/
def goodLine (l : List Nat) : Prop := l ≠ [] ∧ ¬ 10 ∈ l ∧ ¬ 13 ∈ l

instance (l : List Nat) : Decidable (goodLine l) := by
  unfold goodLine
  infer_instance

/-- Well-formedness: clean header lines, exactly one `Content-Length`
(case-insensitive) whose value parses to the body length, and a total
length below `2^64` (no `size_t` wrap). -/
def wfRecord (r : WRecord) : Prop :=
  (∀ l ∈ r.headers, goodLine l) ∧
  r.headers.countP clMatch = 1 ∧
  (∀ l ∈ r.headers, clMatch l → clParse l = some r.body.length) ∧
  totalLen r < kSizeT

instance (r : WRecord) : Decidable (wfRecord r) := by
  unfold wfRecord
  infer_instance

/-! ### Concrete records and streams used in scenario theorems -/

/-- A small well-formed record with body `"hello"`. -/
def recA : WRecord := ⟨[strBytes "Content-Length: 5"], strBytes "hello"⟩

/-- A small well-formed record with body `"BB"`. -/
def recB : WRecord := ⟨[strBytes "Content-Length: 2"], strBytes "BB"⟩

/-- A record whose trailing `CRLF CRLF` is corrupted (`XXXX`), followed by
filler up to the 4 KiB read boundary, then a well-formed record. -/
def badCRLFInput : List Nat :=
  strBytes "WARC/1.0\r\nContent-Length: 5\r\n\r\nhelloXXXX"
    ++ List.replicate 4056 74 ++ serRecord recB

/-- An oversize record for the C5 witness: declared length 4091, body
bytes arbitrary. -/
def recBig : WRecord := ⟨[strBytes "Content-Length: 4091"], List.replicate 4091 65⟩

/-! ## `util::ReadCompressed`: chained decompression

The zlib / bzip2 / lzma backends are external libraries; their stream
decoders are spec-modelled by a toy member format `magic ++ length ++
payload` whose decoder consumes input maximally and withholds the decoded
payload until the member end, as the spec describes.  Everything around
them — `ReadFactory` magic sniffing, the `StreamCompressed::Read` refill /
`Z_STREAM_END` / delegation loop, `Skip`, `SkipTo`,
`UncompressedWithHeader` — is embedded from the source. -/

inductive Codec where
  | gz
  | bz
  | xz
  deriving DecidableEq, Repr

def magicOf : Codec → List Nat
  | .gz => [31, 139]
  | .bz => [66, 90, 104]
  | .xz => [253, 55, 122, 88, 90, 0]

/-- `DetectMagic`: gzip's two bytes, then bzip2's `BZh`, then xz's six
bytes. -/
def detectMagic (header : List Nat) : Option Codec :=
  if 2 ≤ header.length ∧ header.take 2 = [31, 139] then some .gz
  else if 3 ≤ header.length ∧ header.take 3 = [66, 90, 104] then some .bz
  else if 6 ≤ header.length ∧ header.take 6 = [253, 55, 122, 88, 90, 0] then some .xz
  else none

def kMagicSize : Nat := 6

def kInputBuffer : Nat := 16384

/-- A compressed member of the toy wire format: `magic ++ payload.length
:: payload`. -/
structure Member where
  codec : Codec
  payload : List Nat
  deriving DecidableEq, Repr

def wireOf (m : Member) : List Nat :=
  magicOf m.codec ++ m.payload.length :: m.payload

/-- Header part of a member wire: magic plus the length byte. -/
def hdrLen (c : Codec) : Nat := (magicOf c).length + 1

def wfMember (m : Member) : Prop :=
  1 ≤ m.payload.length ∧ m.payload.length ≤ 255

instance (m : Member) : Decidable (wfMember m) := by
  unfold wfMember
  infer_instance

def wiresFlatten (ms : List Member) : List Nat := (ms.map wireOf).flatten

def payloadsFlatten (ms : List Member) : List Nat :=
  (ms.map Member.payload).flatten

/-- The readers behind `ReadCompressed::internal_`. -/
inductive RB where
  | complete
  | uncompressed
  | uncompressedWithHeader (buf : List Nat)
  | stream (c : Codec) (inBuf seen pending : List Nat) (done : Bool)
  deriving DecidableEq, Repr

/-- `ReadCompressed`: `raw_amount_` (ReadCount), the file's remaining
bytes, and `internal_`. -/
structure RCState where
  raw : Nat
  fd : List Nat
  rb : RB
  deriving DecidableEq, Repr

inductive CErr where
  | compressed
  | decoder
  deriving DecidableEq, Repr

/-- `ReadFactory(fd, raw_amount, already_data, already_size,
require_compressed)`: top the sniffed header up to `kMagicSize` bytes
(counting the extra reads in `raw_amount`), dispatch on the magic;
an unrecognized header is `CompressedException` when
`require_compressed`, else an `UncompressedWithHeader`. -/
def readFactory (fd : List Nat) (raw : Nat) (already : List Nat)
    (require : Bool) : Except CErr (RB × List Nat × Nat) :=
  let got := min (kMagicSize - already.length) fd.length
  let header := already ++ fd.take got
  let fd1 := fd.drop got
  let raw1 := raw + got
  if header.isEmpty then .ok (.complete, fd1, raw1)
  else
    match detectMagic header with
    | some c => .ok (.stream c header [] [] false, fd1, raw1)
    | none =>
      if require then .error .compressed
      else .ok (.uncompressedWithHeader header, fd1, raw1)

/-- How much the toy decoder consumes in one `Process`: up to the member
end once the header (and so the total length) is visible, else all the
input while still inside the header. -/
def wireTarget (c : Codec) (seen inBuf : List Nat) : Nat :=
  let s2 := seen ++ inBuf
  if hdrLen c ≤ s2.length then (hdrLen c + s2.getD (hdrLen c - 1) 0) - seen.length
  else inBuf.length

/-- One step outcome of the `StreamCompressed::Read` loop. -/
inductive RdStep where
  | out (bytes : List Nat) (s : RCState)
  | delegate (s : RCState)
  | err (e : CErr)
  deriving Repr

/-- `Z_STREAM_END` handling in `StreamCompressed::Read`: replace this
reader by `ReadFactory(..., require_compressed = true)` on the residual
input; if nothing was output this round, transfer the `Read` call to the
new reader. -/
def streamEnd (produced inBuf fd : List Nat) (raw : Nat) : Option RdStep :=
  match readFactory fd raw inBuf true with
  | .error e => some (.err e)
  | .ok (rb, fd1, raw1) =>
    if produced.isEmpty then some (.delegate ⟨raw1, fd1, rb⟩)
    else some (.out produced ⟨raw1, fd1, rb⟩)

/-- The `do { if (!avail_in) ReadInput(); Process(); } while (next_out ==
to)` loop of `StreamCompressed::Read`.  A `Process` that can neither
consume input (empty refill on a truncated member) nor produce output is
the decoder's error. -/
def streamLoopF : Nat → Codec → List Nat → List Nat → List Nat → Bool →
    List Nat → Nat → List Nat → Nat → Option RdStep
  | 0, _, _, _, _, _, _, _, _, _ => none
  | fuel + 1, c, inBuf, seen, pending, done, fd, raw, produced, amount =>
    let got := if inBuf.isEmpty then min kInputBuffer fd.length else 0
    let inBuf1 := if inBuf.isEmpty then fd.take got else inBuf
    let fd1 := if inBuf.isEmpty then fd.drop got else fd
    let raw1 := raw + got
    if done then
      let e := min (amount - produced.length) pending.length
      let pending1 := pending.drop e
      let produced1 := produced ++ pending.take e
      if pending1.isEmpty then streamEnd produced1 inBuf1 fd1 raw1
      else if produced1.isEmpty then
        streamLoopF fuel c inBuf1 seen pending1 true fd1 raw1 produced1 amount
      else some (.out produced1 ⟨raw1, fd1, .stream c inBuf1 seen pending1 true⟩)
    else
      if inBuf1.isEmpty then some (.err .decoder)
      else
        let wtake := min inBuf1.length (wireTarget c seen inBuf1)
        let seen1 := seen ++ inBuf1.take wtake
        let inBuf2 := inBuf1.drop wtake
        if hdrLen c ≤ seen1.length ∧
            seen1.length = hdrLen c + seen1.getD (hdrLen c - 1) 0 then
          let pend := seen1.drop (hdrLen c)
          let e := min (amount - produced.length) pend.length
          let pend1 := pend.drop e
          let produced1 := produced ++ pend.take e
          if pend1.isEmpty then streamEnd produced1 inBuf2 fd1 raw1
          else if produced1.isEmpty then
            streamLoopF fuel c inBuf2 seen1 pend1 true fd1 raw1 produced1 amount
          else some (.out produced1 ⟨raw1, fd1, .stream c inBuf2 seen1 pend1 true⟩)
        else
          if produced.isEmpty then
            streamLoopF fuel c inBuf2 seen1 [] false fd1 raw1 produced amount
          else some (.out produced ⟨raw1, fd1, .stream c inBuf2 seen1 [] false⟩)

/-- `ReadCompressed::Read(to, amount)` dispatched through `internal_`;
the fuel bounds the `Complete`-style delegation chain. -/
def rcReadF : Nat → RCState → Nat → Option (Except CErr (List Nat × RCState))
  | 0, _, _ => none
  | fuel + 1, s, amount =>
    match s.rb with
    | .complete => some (.ok ([], s))
    | .uncompressed =>
      let got := min amount s.fd.length
      some (.ok (s.fd.take got, ⟨s.raw + got, s.fd.drop got, .uncompressed⟩))
    | .uncompressedWithHeader buf =>
      let sending := min amount buf.length
      if (buf.drop sending).isEmpty then
        some (.ok (buf.take sending, ⟨s.raw, s.fd, .uncompressed⟩))
      else
        some (.ok (buf.take sending, ⟨s.raw, s.fd,
          .uncompressedWithHeader (buf.drop sending)⟩))
    | .stream c inBuf seen pending done =>
      if amount = 0 then some (.ok ([], s))
      else
        match streamLoopF (2 * (inBuf.length + pending.length + s.fd.length) + 4)
            c inBuf seen pending done s.fd s.raw [] amount with
        | none => none
        | some (.err e) => some (.error e)
        | some (.out bytes s1) => some (.ok (bytes, s1))
        | some (.delegate s1) => rcReadF fuel s1 amount

/-- `ReadCompressed::Reset(fd)`: `raw_amount_ = 0` and the factory with
nothing sniffed and `require_compressed = false`. -/
def rcReset (fd : List Nat) : Except CErr RCState :=
  match readFactory fd 0 [] false with
  | .error e => .error e
  | .ok (rb, fd1, raw1) => .ok ⟨raw1, fd1, rb⟩

/-- Repeatedly `Read` until a call returns 0 bytes, concatenating the
results. -/
def readAllF : Nat → RCState → Nat → Option (Except CErr (List Nat))
  | 0, _, _ => none
  | fuel + 1, s, amount =>
    match rcReadF (fuel + 1) s amount with
    | none => none
    | some (.error e) => some (.error e)
    | some (.ok ([], _)) => some (.ok [])
    | some (.ok (b :: bs, s1)) =>
      match readAllF fuel s1 amount with
      | none => none
      | some (.error e) => some (.error e)
      | some (.ok rest) => some (.ok ((b :: bs) ++ rest))

/-- Total `Read` wrapper (the delegation chain eats at least three bytes
per hop, so this fuel suffices everywhere it is used). -/
def rcRead (s : RCState) (amount : Nat) : Except CErr (List Nat × RCState) :=
  (rcReadF (s.fd.length + 2) s amount).getD (.error .decoder)

/-- `StreamCompressed::Skip`: scan `avail_in` for the xz magic with
`memmem`; on a miss keep the last 8 buffered bytes and refill behind
them; on a hit replace this reader by the factory at the magic.  (For a
buffer shorter than 8 bytes the C++ `next_in - 8` reads before the data;
the model keeps the whole buffer instead.)  Running out of fuel models
non-termination. -/
def skipF : Nat → Codec → List Nat → List Nat → Nat → Nat →
    Option (Except CErr (Nat × RCState))
  | 0, _, _, _, _, _ => none
  | fuel + 1, c, inBuf, fd, raw, skipped =>
    if inBuf.isEmpty then
      some (.ok (skipped, ⟨raw, fd, .stream c inBuf [] [] false⟩))
    else
      let offset := (findSub (magicOf .xz) inBuf).getD inBuf.length
      let skipped1 := skipped + offset
      let inBuf1 := inBuf.drop offset
      if inBuf1.isEmpty then
        let keep := inBuf.drop (inBuf.length - 8)
        let got := min (kInputBuffer - 8) fd.length
        skipF fuel c (keep ++ fd.take got) (fd.drop got) (raw + got) skipped1
      else
        match readFactory fd raw inBuf1 true with
        | .error e => some (.error e)
        | .ok (rb, fd1, raw1) => some (.ok (skipped1, ⟨raw1, fd1, rb⟩))

/-- `StreamCompressed::SkipTo(offsets)`: position is `ReadCount -
avail_in`; jump to the first listed offset beyond it (in the buffer, or
by discarding reads); then replace this reader by the factory.  The
return value reads `ReadCount` and `avail_in` *after* `ReplaceThis` has
destroyed the object; the freed memory still holds the old `avail_in`,
so the factory's magic top-up is included in the returned count. -/
def skipTo (offsets : List Nat) (c : Codec) (inBuf fd : List Nat) (raw : Nat) :
    Except CErr (Nat × RCState) :=
  let pos := raw - inBuf.length
  let offset := (offsets.find? (fun o => decide (pos < o))).getD 0
  if offset = 0 then .error .compressed
  else if offset < raw then
    let inBuf1 := inBuf.drop (offset - pos)
    match readFactory fd raw inBuf1 true with
    | .error e => .error e
    | .ok (rb, fd1, raw1) => .ok ((raw1 - inBuf1.length) - pos, ⟨raw1, fd1, rb⟩)
  else
    let got := min (offset - raw) fd.length
    match readFactory (fd.drop got) (raw + got) [] true with
    | .error e => .error e
    | .ok (rb, fd1, raw1) => .ok ((raw1 - 0) - pos, ⟨raw1, fd1, rb⟩)

/-! ## Theorems -/

theorem findNL_append_not {a : List Nat} (b : List Nat) (ha : ¬ 10 ∈ a) :
    findNL (a ++ b) = (findNL b).map (a.length + ·) := by
  induction a with
  | nil => cases hfb : findNL b <;> simp [hfb]
  | cons x xs ih =>
    simp only [List.mem_cons, not_or] at ha
    have hx : ¬ x = 10 := fun h => ha.1 h.symm
    rw [List.cons_append]
    simp only [findNL, if_neg hx, ih ha.2]
    cases hfb : findNL b with
    | none => simp [hfb]
    | some n =>
      simp only [hfb, Option.map_some', Option.some.injEq, List.length_cons]
      omega

theorem findNL_cons_nl (rest : List Nat) : findNL (10 :: rest) = some 0 := by
  simp [findNL]

theorem findNL_eq_none {l : List Nat} (h : ¬ 10 ∈ l) : findNL l = none := by
  induction l with
  | nil => rfl
  | cons x xs ih =>
    simp only [List.mem_cons, not_or] at h
    have hx : ¬ x = 10 := fun hc => h.1 hc.symm
    simp [findNL, hx, ih h.2]

/-- Main characterization used for line splitting: if the bytes after
position `i` are `a ++ 10 :: b` with no newline in `a`, the find lands on
the newline. -/
theorem findFrom_split {l : List Nat} {i : Nat} {a b : List Nat}
    (hdrop : l.drop i = a ++ 10 :: b) (ha : ¬ 10 ∈ a) :
    findFrom l i = some (i + a.length) := by
  simp [findFrom, hdrop, findNL_append_not _ ha, findNL_cons_nl]

theorem findFrom_none {l : List Nat} {i : Nat} (h : ¬ 10 ∈ l.drop i) :
    findFrom l i = none := by
  simp [findFrom, findNL_eq_none h]

theorem appendLast_concat (xs : List (List (List Nat))) (last : List (List Nat))
    (d : List Nat) : appendLast (xs ++ [last]) d = xs ++ [last ++ [d]] := by
  simp [appendLast, List.dropLast_concat, List.getLastD_concat]

theorem write_roll (s : SplitFileStream) (data : List Nat)
    (h : s.fileOpen = false ∨ s.bytesWritten + data.length > s.bytesLimit) :
    s.write data = ⟨s.bytesLimit, s.fileN + 1, true, data.length,
                    appendLast (s.files ++ [[]]) data⟩ := by
  simp only [SplitFileStream.write, SplitFileStream.openNext, if_pos h]
  congr 1
  omega

theorem write_stay (s : SplitFileStream) (data : List Nat)
    (h1 : s.fileOpen = true) (h2 : ¬ s.bytesWritten + data.length > s.bytesLimit) :
    s.write data = { s with files := appendLast s.files data,
                            bytesWritten := s.bytesWritten + data.length } := by
  have : ¬ (s.fileOpen = false ∨ s.bytesWritten + data.length > s.bytesLimit) := by
    simp [h1, h2]
  simp only [SplitFileStream.write, if_neg this]

theorem foldl_write_greedy (limit : Nat) (ws : List (List Nat)) :
    ∀ (done : List (List (List Nat))) (cur : List (List Nat)) (n B : Nat),
    n = done.length + 1 → B = (cur.map List.length).sum →
    (List.foldl SplitFileStream.write ⟨limit, n, true, B, done ++ [cur]⟩ ws).files
      = done ++ greedyGo limit cur B ws := by
  induction ws with
  | nil => intro done cur n B _ _; simp [greedyGo]
  | cons w rest ih =>
    intro done cur n B hn hB
    by_cases hroll : B + w.length > limit
    · rw [List.foldl_cons, write_roll _ w (Or.inr hroll)]
      simp only
      rw [show (done ++ [cur]) ++ [([] : List (List Nat))]
            = (done ++ [cur]) ++ [[]] from rfl,
          appendLast_concat (done ++ [cur]) [] w]
      simp only [List.nil_append]
      have := ih (done ++ [cur]) [w] (n + 1) w.length
        (by simp [hn]) (by simp)
      rw [this]
      simp [greedyGo, if_pos hroll]
    · rw [List.foldl_cons, write_stay _ w rfl hroll]
      simp only
      rw [appendLast_concat done cur w]
      have := ih done (cur ++ [w]) n (B + w.length) hn (by simp [hB])
      rw [this]
      simp [greedyGo, if_neg hroll]

/-- C9 core: the fold over `write` produces exactly the greedy grouping. -/
theorem runWrites_eq_greedy (limit : Nat) (ws : List (List Nat)) :
    (runWrites limit ws).files = greedySplit limit ws := by
  cases ws with
  | nil => rfl
  | cons w rest =>
    have h0 : SplitFileStream.write (SplitFileStream.init limit) w
        = ⟨limit, 1, true, w.length, [] ++ [[w]]⟩ := by
      rw [write_roll _ w (Or.inl rfl)]
      simp [SplitFileStream.init, appendLast]
    simp only [runWrites, List.foldl_cons, h0, greedySplit]
    exact foldl_write_greedy limit rest [] [w] 1 w.length (by simp) (by simp)

theorem greedyGo_flatten (limit : Nat) (cur : List (List Nat)) (curBytes : Nat)
    (ws : List (List Nat)) :
    (greedyGo limit cur curBytes ws).flatten = cur ++ ws := by
  induction ws generalizing cur curBytes with
  | nil => simp [greedyGo]
  | cons w rest ih =>
    by_cases h : curBytes + w.length > limit
    · simp [greedyGo, if_pos h, ih]
    · simp [greedyGo, if_neg h, ih]

/-- No write is lost, duplicated, split or reordered: the files'
concatenation is the write sequence itself. -/
theorem greedySplit_flatten (limit : Nat) (ws : List (List Nat)) :
    (greedySplit limit ws).flatten = ws := by
  cases ws with
  | nil => rfl
  | cons w rest => simpa [greedySplit] using greedyGo_flatten limit [w] w.length rest

/-- C9: every write lands intact in exactly one output file, files group
writes exactly as the per-write roll rule prescribes (new file on first
write or when `bytes_written + length` would exceed the limit, counter
reset on roll), and no record is split across files: the fold over
`SplitFileStream::write` equals the greedy per-file grouping, whose
concatenation is the original write sequence. -/
theorem claim_C9_splitfilestream (limit : Nat) (ws : List (List Nat)) :
    (runWrites limit ws).files = greedySplit limit ws ∧
    (runWrites limit ws).files.flatten = ws := by
  refine ⟨runWrites_eq_greedy limit ws, ?_⟩
  rw [runWrites_eq_greedy limit ws]
  exact greedySplit_flatten limit ws

theorem decBody_enc (x : List Nat) : decBody (encBytes x ++ [0]) = some x := by
  induction x with
  | nil => rfl
  | cons b rest ih => simp [encBytes, decBody, ih]

theorem flushPending_join (s : GZipWrite) :
    (flushPending s).written ++ (flushPending s).pending = s.written ++ s.pending := by
  simp [flushPending]

theorem flushPending_closed (s : GZipWrite) : (flushPending s).closed = s.closed := rfl

theorem flushPending_outLen (s : GZipWrite) : (flushPending s).outLen = s.outLen := rfl

theorem flushPending_len (s : GZipWrite) (h : s.written.length ≤ s.outLen) :
    (flushPending s).written.length ≤ s.outLen := by
  simp only [flushPending, List.length_append, List.length_take]
  omega

theorem ensureOutput_avail (s : GZipWrite) (h : s.written.length ≤ s.outLen) :
    6 ≤ (EnsureOutput s).outLen - (EnsureOutput s).written.length := by
  simp only [EnsureOutput]
  split
  · simp only
    omega
  · omega

theorem ensureOutput_fields (s : GZipWrite) :
    (EnsureOutput s).pending = s.pending ∧ (EnsureOutput s).closed = s.closed ∧
    (EnsureOutput s).written = s.written ∧ (EnsureOutput s).availIn = s.availIn ∧
    s.outLen ≤ (EnsureOutput s).outLen := by
  simp only [EnsureOutput]
  split <;> simp

/-- The finish loop drains all pending bytes and appends the terminator:
the output prefix ends up exactly the full encoded member. -/
theorem finishLoop_ok (T : List Nat) :
    ∀ (fuel : Nat) (s : GZipWrite),
    s.written ++ s.pending ++ (if s.closed then [] else [0]) = T →
    s.written.length ≤ s.outLen →
    s.pending.length + (if s.closed then 0 else 1) < fuel →
    ∃ s2, finishLoopF fuel s = some s2 ∧ s2.written = T := by
  intro fuel
  induction fuel with
  | zero => intro s _ _ h; omega
  | succ fuel ih =>
    intro s hT hlen hm
    set sE := EnsureOutput s with hsE
    obtain ⟨hp, hc, hw, _, hol⟩ := ensureOutput_fields s
    rw [← hsE] at hp hc hw hol
    have havail : 6 ≤ sE.outLen - sE.written.length := ensureOutput_avail s hlen
    -- the close step of Finish
    set s1 : GZipWrite :=
      if sE.closed then sE else { sE with pending := sE.pending ++ [0], closed := true }
      with hs1
    have hsElen : sE.written.length ≤ sE.outLen := by
      rw [hw]; exact le_trans hlen hol
    have hs1closed : s1.closed = true := by
      by_cases h : sE.closed
      · simp [hs1, h]
      · simp [hs1, h]
    have hs1join : s1.written ++ s1.pending = T := by
      by_cases h : sE.closed
      · have hsc : s.closed = true := by rw [← hc]; exact h
        simp only [hs1, h, ite_true]
        rw [hw, hp]
        simpa [hsc] using hT
      · have hsc : s.closed = false := by rw [← hc]; simpa using h
        simp only [hs1, h, ite_false, Bool.false_eq_true]
        show sE.written ++ (sE.pending ++ [0]) = T
        rw [hw, hp]
        simpa [hsc] using hT
    have hs1len : s1.written.length ≤ s1.outLen := by
      by_cases h : sE.closed <;> simp only [hs1, h, ite_true, ite_false, Bool.false_eq_true] <;>
        exact hsElen
    have hs1out : s1.outLen = sE.outLen := by
      by_cases h : sE.closed <;> simp [hs1, h]
    have hs1w : s1.written = sE.written := by
      by_cases h : sE.closed <;> simp [hs1, h]
    have hs1plen : s1.pending.length ≤ s.pending.length + (if s.closed then 0 else 1) := by
      by_cases h : sE.closed
      · have hpe : s1.pending = s.pending := by
          simp only [hs1, h, ite_true, hp]
        rw [hpe]
        split <;> omega
      · have hsc : s.closed = false := by rw [← hc]; simpa using h
        have hpe : s1.pending = s.pending ++ [0] := by
          simp only [hs1, h, ite_false, Bool.false_eq_true, hp]
        rw [hpe, hsc]
        simp
    set s2 := flushPending s1 with hs2
    have hs2join : s2.written ++ s2.pending = T := by rw [hs2, flushPending_join, hs1join]
    by_cases hdone : s2.pending.isEmpty
    · refine ⟨s2, ?_, ?_⟩
      · simp only [finishLoopF, GZipWrite.Finish, hsE]
        rw [← hs1, ← hs2]
        simp [hdone]
      · have : s2.pending = [] := by simpa [List.isEmpty_iff] using hdone
        simpa [this] using hs2join
    · -- flushed at least one byte; recurse with a smaller measure
      have hs1pne : s1.pending ≠ [] := by
        intro hnil
        simp [hs2, flushPending, hnil, List.isEmpty_iff] at hdone
      have hkpos : 1 ≤ min s1.pending.length (s1.outLen - s1.written.length) := by
        have h1 : 1 ≤ s1.pending.length := by
          cases hsp : s1.pending with
          | nil => exact absurd hsp hs1pne
          | cons a l => simp
        have h2 : 6 ≤ s1.outLen - s1.written.length := by
          rw [hs1out, hs1w]; exact havail
        omega
      have hs2plen : s2.pending.length < s1.pending.length := by
        simp only [hs2, flushPending, List.length_drop]
        omega
      have hs2c : s2.closed = true := by
        rw [hs2, flushPending_closed]
        exact hs1closed
      have hs2len : s2.written.length ≤ s2.outLen := by
        rw [hs2, flushPending_outLen]
        exact flushPending_len s1 hs1len
      have hmeas : s2.pending.length + (if s2.closed then 0 else 1) < fuel := by
        rw [hs2c]
        simp only [if_true, Nat.add_zero, ite_true]
        omega
      obtain ⟨sf, hsf, hsfw⟩ := ih s2 (by simp [hs2c, hs2join]) hs2len hmeas
      refine ⟨sf, ?_, hsfw⟩
      simp only [finishLoopF, GZipWrite.Finish, hsE]
      rw [← hs1, ← hs2]
      simp [hdone, hsf]

/-- The `avail_in` loop consumes the whole input, leaving the encoded
bytes split between the output prefix and the pending queue. -/
theorem processLoop_init (input : List Nat) :
    ∃ w1, processLoopF (input.length + 1)
      { pending := [31, 139], closed := false, availIn := input,
        written := [], outLen := 4096 } = some w1
      ∧ w1.availIn = [] ∧ w1.closed = false
      ∧ w1.written ++ w1.pending = [31, 139] ++ encBytes input
      ∧ w1.written.length ≤ w1.outLen := by
  cases input with
  | nil =>
    exact ⟨⟨[31, 139], false, [], [], 4096⟩, by simp [processLoopF], rfl, rfl,
      by simp [encBytes], by simp⟩
  | cons b rest =>
    set w0 : GZipWrite :=
      { pending := [31, 139], closed := false, availIn := b :: rest,
        written := [], outLen := 4096 } with hw0
    have hE : EnsureOutput w0 = w0 := by
      simp [EnsureOutput, hw0]
    refine ⟨GZipWrite.Process w0, ?_, ?_, ?_, ?_, ?_⟩
    · show processLoopF (rest.length + 1 + 1) w0 = some w0.Process
      rw [show rest.length + 1 + 1 = (rest.length + 1) + 1 from rfl]
      simp only [processLoopF]
      rw [if_neg (by simp [hw0]), hE]
      have ha : (GZipWrite.Process w0).availIn.isEmpty := by
        simp [GZipWrite.Process, flushPending]
      cases rest.length with
      | zero => simp only [processLoopF, if_pos ha]
      | succ m => simp only [processLoopF, if_pos ha]
    · simp [GZipWrite.Process, flushPending]
    · rw [GZipWrite.Process, flushPending_closed]
    · rw [GZipWrite.Process, flushPending_join]
      simp [hw0]
    · rw [GZipWrite.Process]
      have ho : (flushPending { w0 with
          pending := w0.pending ++ encBytes w0.availIn, availIn := [] }).outLen
          = w0.outLen := flushPending_outLen _
      rw [ho]
      exact flushPending_len _ (by simp [hw0])

/-- C8: decoding the gzip member produced by `GZCompress` recovers the
input byte-for-byte, for every input and compression level.  (The zlib
backend is modelled from the spec; the buffer-growth driver loop is the
repository's.) -/
theorem claim_C8_gzcompress_roundtrip (input : List Nat) (level : Nat) :
    gzipDecode (GZCompress input level) = some input := by
  obtain ⟨w1, hproc, hw1a, hw1c, hw1join, hw1len⟩ := processLoop_init input
  obtain ⟨s2, hs2, hs2w⟩ := finishLoop_ok ([31, 139] ++ encBytes input ++ [0])
    (w1.pending.length + (encBytes w1.availIn).length + 3) w1
    (by rw [hw1c]; simp [hw1join, List.append_assoc])
    hw1len
    (by rw [hw1c]; simp only [Bool.false_eq_true, ite_false]; omega)
  simp only [GZCompress, hproc, hs2, hs2w]
  rw [show ([31, 139] ++ encBytes input ++ [0])
        = 31 :: 139 :: (encBytes input ++ [0]) from by simp]
  show decBody (encBytes input ++ [0]) = some input
  exact decBody_enc input

theorem serRecord_length (r : WRecord) : (serRecord r).length = totalLen r := by
  simp [serRecord, totalLen]
  omega

theorem hdrLinesBytes_cons (l : List Nat) (ls : List (List Nat)) :
    hdrLinesBytes (l :: ls) = (l ++ [13, 10]) ++ hdrLinesBytes ls := by
  simp [hdrLinesBytes, lineBytes]

theorem hdrLinesBytes_ge (lines : List (List Nat)) :
    2 * lines.length ≤ (hdrLinesBytes lines).length := by
  induction lines with
  | nil => simp [hdrLinesBytes]
  | cons l ls ih =>
    rw [hdrLinesBytes_cons]
    simp only [List.length_append, List.length_cons]
    simp at ih ⊢
    omega

/-! ### Line-reading lemmas -/

theorem findNL_decomp {l : List Nat} {m : Nat} (h : findNL l = some m) :
    ∃ a b, l = a ++ 10 :: b ∧ a.length = m ∧ ¬ 10 ∈ a := by
  induction l generalizing m with
  | nil => simp [findNL] at h
  | cons x xs ih =>
    by_cases hx : x = 10
    · subst hx
      simp [findNL] at h
      exact ⟨[], xs, by simp, by simp [← h], by simp⟩
    · simp only [findNL, if_neg hx] at h
      cases hm : findNL xs with
      | none => simp [hm] at h
      | some m' =>
        simp only [hm, Option.map_some'] at h
        have h' : m' + 1 = m := Option.some.inj h
        obtain ⟨a, b, hab, hlen, hmem⟩ := ih hm
        refine ⟨x :: a, b, by simp [hab], by simp [hlen]; omega, ?_⟩
        simp only [List.mem_cons, not_or]
        exact ⟨fun hc => hx hc.symm, hmem⟩

theorem findNL_none_not_mem {l : List Nat} (h : findNL l = none) : ¬ 10 ∈ l := by
  induction l with
  | nil => simp
  | cons x xs ih =>
    by_cases hx : x = 10
    · subst hx; simp [findNL] at h
    · simp only [findNL, if_neg hx] at h
      cases hm : findNL xs with
      | some m' => simp [hm] at h
      | none =>
        simp only [List.mem_cons, not_or]
        exact ⟨fun hc => hx hc.symm, ih hm⟩

/-- `findFrom l i = some n` decomposes `l.drop i` around the newline. -/
theorem findFrom_decomp {l : List Nat} {i n : Nat} (h : findFrom l i = some n) :
    ∃ a b, l.drop i = a ++ 10 :: b ∧ i + a.length = n ∧ ¬ 10 ∈ a := by
  simp only [findFrom] at h
  cases hm : findNL (l.drop i) with
  | none => simp [hm] at h
  | some m =>
    simp only [hm, Option.map_some'] at h
    have h' : i + m = n := Option.some.inj h
    obtain ⟨a, b, hab, hlen, hmem⟩ := findNL_decomp hm
    exact ⟨a, b, hab, by omega, hmem⟩

theorem findFrom_none_not_mem {l : List Nat} {i : Nat} (h : findFrom l i = none) :
    ¬ 10 ∈ l.drop i := by
  simp only [findFrom] at h
  cases hm : findNL (l.drop i) with
  | some m => simp [hm] at h
  | none => exact findNL_none_not_mem hm

/-- Positions of a decomposition `l.drop c = a ++ 10 :: b`: the newline sits
at index `c + a.length` of `l`. -/
theorem decomp_unique {l : List Nat} {c : Nat} {a b a' b' : List Nat}
    (h1 : l.drop c = a ++ 10 :: b) (ha : ¬ 10 ∈ a)
    (h2 : l.drop c = a' ++ 10 :: b') (ha' : ¬ 10 ∈ a') :
    a = a' ∧ b = b' := by
  have h3 : a ++ 10 :: b = a' ++ 10 :: b' := by rw [← h1, ← h2]
  have hlen : a.length = a'.length := by
    rcases Nat.lt_trichotomy a.length a'.length with hlt | heq | hgt
    · exfalso
      -- a is a proper prefix of a', so a' contains the 10 after a
      have hx : (a ++ 10 :: b)[a.length]? = some 10 := by
        rw [List.getElem?_append_right (le_refl _)]
        simp
      rw [h3, List.getElem?_append_left hlt] at hx
      exact ha' (List.getElem?_mem hx)
    · exact heq
    · exfalso
      have hx : (a' ++ 10 :: b')[a'.length]? = some 10 := by
        rw [List.getElem?_append_right (le_refl _)]
        simp
      rw [← h3, List.getElem?_append_left hgt] at hx
      exact ha (List.getElem?_mem hx)
  have := List.append_inj h3 hlen
  exact ⟨this.1, by simpa using this.2⟩

/-- Core line-reading specification.  If the unread bytes from `consumed`
are a newline-free chunk `a` followed by a newline, `hlineF` (with enough
fuel) returns the stripped line `a`, advances `consumed` past the newline,
and the scratch + source concatenation is untouched.  The scratch grows to
cover the line but at most one 4 KiB chunk past it. -/
theorem hlineF_spec :
    ∀ (fuel : Nat) (out src : List Nat) (consumed start : Nat) (a b : List Nat),
    src.length < fuel →
    consumed ≤ start → start ≤ out.length →
    (out ++ src).drop consumed = a ++ 10 :: b →
    ¬ 10 ∈ a →
    start ≤ consumed + a.length →
    ∃ out' src',
      hlineF fuel out src consumed start
        = some (.line (stripCR a) out' src' (consumed + a.length + 1)) ∧
      out' ++ src' = out ++ src ∧
      consumed + a.length + 1 ≤ out'.length ∧
      out.length ≤ out'.length ∧
      out'.length ≤ max out.length (consumed + a.length + 4096) := by
  intro fuel
  induction fuel with
  | zero => intro out src consumed start a b hf; omega
  | succ fuel ih =>
    intro out src consumed start a b hf hcs hso hdrop hmem hsa
    have hnl : (out ++ src)[consumed + a.length]? = some 10 := by
      have h1 : ((out ++ src).drop consumed)[a.length]? = some 10 := by
        rw [hdrop, List.getElem?_append_right (le_refl _)]
        simp
      rw [List.getElem?_drop] at h1
      exact h1
    have hlt : consumed + a.length < (out ++ src).length := by
      have := List.getElem?_eq_some_iff.mp hnl
      exact this.1
    cases hff : findFrom out start with
    | some n =>
      -- the newline found in `out` alone is the global one
      obtain ⟨a', b', hd', hn', hm'⟩ := findFrom_decomp hff
      have hout : n < out.length := by
        have h1 : out.length - start = a'.length + (b'.length + 1) := by
          rw [← List.length_drop, hd', List.length_append]
          simp
        omega
      -- translate both decompositions to position `start`
      have hsplit1 : (out ++ src).drop start
          = (a.drop (start - consumed)) ++ 10 :: b := by
        have h0 : (out ++ src).drop start
            = ((out ++ src).drop consumed).drop (start - consumed) := by
          rw [List.drop_drop]
          congr 1
          omega
        rw [h0, hdrop, List.drop_append_of_le_length (by omega)]
      have hsplit2 : (out ++ src).drop start = a' ++ 10 :: (b' ++ src) := by
        rw [List.drop_append_of_le_length hso, hd']
        simp
      have hmem1 : ¬ 10 ∈ a.drop (start - consumed) :=
        fun hc => hmem (List.mem_of_mem_drop hc)
      obtain ⟨heqa, _⟩ := decomp_unique hsplit1 hmem1 hsplit2 hm'
      have hlen' : a'.length = a.length - (start - consumed) := by
        rw [← heqa, List.length_drop]
      have hn : n = consumed + a.length := by omega
      -- the line slice equals `a`
      have hconsle : consumed ≤ out.length := by omega
      have hslice : slice out consumed n = a := by
        have hxy : out.drop consumed ++ src = a ++ 10 :: b := by
          rw [← List.drop_append_of_le_length hconsle, hdrop]
        have halen : a.length ≤ (out.drop consumed).length := by
          rw [List.length_drop]
          omega
        have hcalc : (out.drop consumed).take a.length = a := by
          rw [← List.take_append_of_le_length halen, hxy,
              List.take_append_of_le_length (le_refl _), List.take_length]
        rw [slice, show n - consumed = a.length from by omega, hcalc]
      refine ⟨out, src, ?_, rfl, by omega, le_refl _, by omega⟩
      rw [hn] at hslice
      simp only [hlineF, hff, hn, hslice]
    | none =>
      -- no newline in `out` yet: the global one lies at or past `out.length`
      have hnot : ¬ 10 ∈ out.drop start := findFrom_none_not_mem hff
      have houtlen : out.length ≤ consumed + a.length := by
        by_contra hlt2
        push_neg at hlt2
        have : (out ++ src)[consumed + a.length]? = out[consumed + a.length]? := by
          rw [List.getElem?_append_left hlt2]
        rw [this] at hnl
        have hmm : 10 ∈ out.drop start := by
          have hge : start ≤ consumed + a.length := hsa
          have : out[consumed + a.length]? = some 10 := hnl
          have h10 : (out.drop start)[consumed + a.length - start]? = some 10 := by
            rw [List.getElem?_drop]
            rw [show start + (consumed + a.length - start) = consumed + a.length by omega]
            exact this
          exact List.getElem?_mem h10
        exact hnot hmm
      have hsrc : ¬ src.isEmpty := by
        have : out.length < (out ++ src).length := by omega
        rw [List.length_append] at this
        simp only [List.isEmpty_iff]
        intro hc
        rw [hc] at this
        simp at this
      have hsrcb : src.isEmpty = false := by
        revert hsrc
        cases src <;> simp
      have hrec := ih (out ++ src.take 4096) (src.drop 4096) consumed out.length a b
        (by
          have hlen4 : (src.drop 4096).length = src.length - 4096 := by simp
          have hpos : 0 < src.length := by
            cases hs : src with
            | nil => rw [hs] at hsrc; simp at hsrc
            | cons c cs => simp [hs]
          omega)
        (by omega)
        (by simp)
        (by rw [List.append_assoc, List.take_append_drop]; exact hdrop)
        hmem
        (by omega)
      obtain ⟨out', src', heq, hjoin, hc1, hc2, hc3⟩ := hrec
      refine ⟨out', src',
        by simp only [hlineF, hff, hsrcb, Bool.false_eq_true, if_false]; exact heq,
        ?_, hc1, ?_, ?_⟩
      · rw [hjoin, List.append_assoc, List.take_append_drop]
      · have : out.length ≤ (out ++ src.take 4096).length := by simp
        omega
      · have hmax : (out ++ src.take 4096).length ≤ consumed + a.length + 4096 := by
          have : (src.take 4096).length ≤ 4096 := by simp
          rw [List.length_append]
          omega
        omega

/-- `hline` (the total wrapper) satisfies the same specification. -/
theorem hline_spec (out src : List Nat) (consumed start : Nat) (a b : List Nat)
    (hcs : consumed ≤ start) (hso : start ≤ out.length)
    (hdrop : (out ++ src).drop consumed = a ++ 10 :: b) (hmem : ¬ 10 ∈ a)
    (hsa : start ≤ consumed + a.length) :
    ∃ out' src',
      hline out src consumed start
        = .line (stripCR a) out' src' (consumed + a.length + 1) ∧
      out' ++ src' = out ++ src ∧
      consumed + a.length + 1 ≤ out'.length ∧
      out.length ≤ out'.length ∧
      out'.length ≤ max out.length (consumed + a.length + 4096) := by
  obtain ⟨out', src', heq, h1, h2, h3, h4⟩ :=
    hlineF_spec (src.length + 1) out src consumed start a b
      (by omega) hcs hso hdrop hmem hsa
  exact ⟨out', src', by rw [hline, heq]; rfl, h1, h2, h3, h4⟩

theorem stripCR_concat (l : List Nat) : stripCR (l ++ [13]) = l := by
  rw [stripCR, if_pos]
  · exact List.dropLast_concat
  · simp

/-- The body-read loop fills the scratch to exactly `total` bytes when the
source suffices. -/
theorem readExactF_ok :
    ∀ (fuel : Nat) (cur : List Nat) (total : Nat) (src : List Nat),
    total - cur.length < fuel → cur.length ≤ total →
    total - cur.length ≤ src.length →
    readExactF fuel cur total src
      = some (.ok (cur ++ src.take (total - cur.length),
                   src.drop (total - cur.length))) := by
  intro fuel
  induction fuel with
  | zero => intro cur total src h; omega
  | succ fuel ih =>
    intro cur total src hf hle hsrc
    by_cases hdone : cur.length = total
    · simp only [readExactF, if_pos hdone, hdone, Nat.sub_self]
      simp
    · have hlt : cur.length < total := by omega
      have hgot : min (total - cur.length) src.length = total - cur.length := by omega
      have hpos : ¬ (min (total - cur.length) src.length = 0) := by omega
      simp only [readExactF, if_neg hdone, hgot, if_neg (by omega : ¬ total - cur.length = 0)]
      have hlen : (cur ++ src.take (total - cur.length)).length = total := by
        simp only [List.length_append, List.length_take]
        omega
      have := ih (cur ++ src.take (total - cur.length)) total (src.drop (total - cur.length))
        (by omega) (by omega) (by simp; omega)
      rw [this, hlen, Nat.sub_self]
      simp

/-- The oversize-discard loop consumes exactly `total - start` source
bytes when the source suffices. -/
theorem readDiscardF_ok :
    ∀ (fuel : Nat) (start total : Nat) (src : List Nat),
    total - start < fuel → start ≤ total →
    total - start ≤ src.length →
    readDiscardF fuel start total src = some (.ok (src.drop (total - start))) := by
  intro fuel
  induction fuel with
  | zero => intro start total src h; omega
  | succ fuel ih =>
    intro start total src hf hle hsrc
    by_cases hdone : start = total
    · simp only [readDiscardF, if_pos hdone, hdone, Nat.sub_self]
      simp
    · have hlt : start < total := by omega
      set g := min (min 32768 (total - start)) src.length with hg
      have hgpos : 0 < g := by
        rw [hg]
        omega
      simp only [readDiscardF, if_neg hdone]
      rw [← hg, if_neg (by omega)]
      have := ih (start + g) total (src.drop g)
        (by omega) (by omega) (by simp; omega)
      rw [this]
      rw [List.drop_drop]
      rw [show g + (total - (start + g)) = total - start from by omega]

/-- The header loop over a well-formed header block consumes each line,
records the unique `Content-Length`, and stops at the blank line with
`consumed` at the full header length. -/
theorem headerLoopF_spec :
    ∀ (lines : List (List Nat)) (fuel : Nat) (out src : List Nat)
      (consumed : Nat) (seen : Bool) (len L : Nat) (tail : List Nat),
    lines.length < fuel →
    consumed ≤ out.length →
    (out ++ src).drop consumed = hdrLinesBytes lines ++ 13 :: 10 :: tail →
    (∀ l ∈ lines, goodLine l) →
    (if seen then lines.countP clMatch = 0 ∧ len = L
     else lines.countP clMatch = 1 ∧ ∀ l ∈ lines, clMatch l → clParse l = some L) →
    ∃ out2 src2,
      headerLoopF fuel out src consumed seen len
        = some (.done out2 src2 (consumed + (hdrLinesBytes lines).length + 2) true L) ∧
      out2 ++ src2 = out ++ src ∧
      consumed + (hdrLinesBytes lines).length + 2 ≤ out2.length ∧
      out.length ≤ out2.length ∧
      out2.length ≤ max out.length (consumed + (hdrLinesBytes lines).length + 2 + 4095) := by
  intro lines
  induction lines with
  | nil =>
    intro fuel out src consumed seen len L tail hfuel hco hdrop hgood hcl
    cases fuel with
    | zero => omega
    | succ f =>
      have hdrop' : (out ++ src).drop consumed = [13] ++ 10 :: tail := by
        simpa [hdrLinesBytes] using hdrop
      obtain ⟨out', src', heq, hjoin, hc1, hc2, hc3⟩ :=
        hline_spec out src consumed consumed [13] tail (le_refl _) hco hdrop'
          (by simp) (by omega)
      have hstrip : stripCR [13] = [] := stripCR_concat []
      cases hseen : seen with
      | true =>
        rw [hseen] at hcl
        simp only [if_true] at hcl
        refine ⟨out', src', ?_, hjoin,
          by simp only [hdrLinesBytes, List.map_nil, List.flatten_nil,
               List.length_nil]; simpa using hc1,
          hc2, ?_⟩
        · simp only [headerLoopF, heq, hstrip, List.isEmpty_nil, if_true]
          rw [hcl.2]
          simp [hdrLinesBytes]
        · simp only [hdrLinesBytes, List.map_nil, List.flatten_nil, List.length_nil]
          simp only [List.length_singleton] at hc3
          omega
      | false =>
        rw [hseen] at hcl
        simp only [if_false, Bool.false_eq_true, ite_false] at hcl
        simp at hcl
  | cons l ls ih =>
    intro fuel out src consumed seen len L tail hfuel hco hdrop hgood hcl
    cases fuel with
    | zero => omega
    | succ f =>
      have hgl : goodLine l := hgood l (by simp)
      have hdrop' : (out ++ src).drop consumed
          = (l ++ [13]) ++ 10 :: (hdrLinesBytes ls ++ 13 :: 10 :: tail) := by
        rw [hdrop, hdrLinesBytes_cons]
        simp
      obtain ⟨out', src', heq, hjoin, hc1, hc2, hc3⟩ :=
        hline_spec out src consumed consumed (l ++ [13])
          (hdrLinesBytes ls ++ 13 :: 10 :: tail) (le_refl _) hco hdrop'
          (by
            simp only [List.mem_append, List.mem_singleton, not_or]
            exact ⟨hgl.2.1, by omega⟩)
          (by omega)
      have hstrip : stripCR (l ++ [13]) = l := stripCR_concat l
      have hlen_a : (l ++ [13]).length = l.length + 1 := by simp
      have hconsumed' : consumed + (l ++ [13]).length + 1 = consumed + l.length + 2 := by
        simp
        omega
      have hne : l.isEmpty = false := by
        cases hl : l with
        | nil => exact absurd hl hgl.1
        | cons x xs => rfl
      -- the state feeding the recursive call
      have hdrop2 : (out' ++ src').drop (consumed + l.length + 2)
          = hdrLinesBytes ls ++ 13 :: 10 :: tail := by
        rw [hjoin]
        rw [show consumed + l.length + 2 = consumed + (l.length + 2) from by omega]
        rw [← List.drop_drop, hdrop']
        have hsplit : ((l ++ [13]) ++ 10 :: (hdrLinesBytes ls ++ 13 :: 10 :: tail))
            = (l ++ [13] ++ [10]) ++ (hdrLinesBytes ls ++ 13 :: 10 :: tail) := by simp
        rw [hsplit, List.drop_append_of_le_length (by simp)]
        have hnil : (l ++ [13] ++ [10]).drop (l.length + 2) = [] :=
          List.drop_eq_nil_of_le (by simp)
        rw [hnil]
        rfl
      have hco2 : consumed + l.length + 2 ≤ out'.length := by
        rw [hconsumed'] at hc1
        omega
      have hflat : (hdrLinesBytes (l :: ls)).length
          = l.length + 2 + (hdrLinesBytes ls).length := by
        rw [hdrLinesBytes_cons]
        simp
        omega
      by_cases hm : clMatch l
      · -- the Content-Length line
        cases hseen : seen with
        | true =>
          rw [hseen] at hcl
          simp only [if_true] at hcl
          exfalso
          have := hcl.1
          rw [List.countP_cons, if_pos hm] at this
          omega
        | false =>
          rw [hseen] at hcl
          simp only [if_false, Bool.false_eq_true, ite_false] at hcl
          have hparse : clParse l = some L := hcl.2 l (by simp) hm
          have hcount : ls.countP clMatch = 0 := by
            have := hcl.1
            rw [List.countP_cons, if_pos hm] at this
            omega
          obtain ⟨out2, src2, heq2, hjoin2, hd1, hd2, hd3⟩ :=
            ih f out' src' (consumed + l.length + 2) true L L tail
              (by simpa using Nat.lt_of_succ_lt_succ hfuel)
              hco2 hdrop2 (fun x hx => hgood x (by simp [hx]))
              (by simp [hcount])
          refine ⟨out2, src2, ?_, by rw [hjoin2, hjoin], ?_, by omega, ?_⟩
          · simp only [headerLoopF, heq, hstrip, hne, Bool.false_eq_true, if_false,
              if_pos hm, hparse]
            rw [hconsumed']
            rw [heq2]
            rw [hflat]
            congr 2
            omega
          · rw [hflat]
            omega
          · rw [hflat]
            rw [hlen_a] at hc3
            omega
      · -- an ordinary header line
        have hcl2 : (if seen then ls.countP clMatch = 0 ∧ len = L
            else ls.countP clMatch = 1 ∧ ∀ x ∈ ls, clMatch x → clParse x = some L) := by
          cases hseen : seen with
          | true =>
            rw [hseen] at hcl
            simp only [if_true] at hcl ⊢
            have := hcl.1
            rw [List.countP_cons, if_neg hm] at this
            exact ⟨by omega, hcl.2⟩
          | false =>
            rw [hseen] at hcl
            simp only [if_false, Bool.false_eq_true, ite_false] at hcl ⊢
            have h1 := hcl.1
            rw [List.countP_cons, if_neg hm] at h1
            exact ⟨by omega, fun x hx hmx => hcl.2 x (by simp [hx]) hmx⟩
        obtain ⟨out2, src2, heq2, hjoin2, hd1, hd2, hd3⟩ :=
          ih f out' src' (consumed + l.length + 2) seen len L tail
            (by simpa using Nat.lt_of_succ_lt_succ hfuel)
            hco2 hdrop2 (fun x hx => hgood x (by simp [hx])) hcl2
        refine ⟨out2, src2, ?_, by rw [hjoin2, hjoin], ?_, by omega, ?_⟩
        · simp only [headerLoopF, heq, hstrip, hne, Bool.false_eq_true, if_false,
            if_neg hm]
          rw [hconsumed']
          rw [heq2]
          rw [hflat]
          congr 2
          omega
        · rw [hflat]
          omega
        · rw [hflat]
          rw [hlen_a] at hc3
          omega

/-- Wrapper form of `headerLoopF_spec` with the fuel discharged. -/
theorem headerLoop_spec (lines : List (List Nat)) (out src : List Nat)
    (consumed : Nat) (seen : Bool) (len L : Nat) (tail : List Nat)
    (hco : consumed ≤ out.length)
    (hdrop : (out ++ src).drop consumed = hdrLinesBytes lines ++ 13 :: 10 :: tail)
    (hgood : ∀ l ∈ lines, goodLine l)
    (hcl : if seen then lines.countP clMatch = 0 ∧ len = L
           else lines.countP clMatch = 1 ∧ ∀ l ∈ lines, clMatch l → clParse l = some L) :
    ∃ out2 src2,
      headerLoop out src consumed seen len
        = .done out2 src2 (consumed + (hdrLinesBytes lines).length + 2) true L ∧
      out2 ++ src2 = out ++ src ∧
      consumed + (hdrLinesBytes lines).length + 2 ≤ out2.length ∧
      out.length ≤ out2.length ∧
      out2.length ≤ max out.length (consumed + (hdrLinesBytes lines).length + 2 + 4095) := by
  have hfl : (hdrLinesBytes lines).length + 2 + tail.length
      = out.length + src.length - consumed := by
    have h1 : ((out ++ src).drop consumed).length = out.length + src.length - consumed := by
      simp
    rw [hdrop] at h1
    simp at h1
    omega
  have hge := hdrLinesBytes_ge lines
  have hfuel : lines.length < out.length + src.length + 2 := by omega
  obtain ⟨out2, src2, heq, h1, h2, h3, h4⟩ :=
    headerLoopF_spec lines (out.length + src.length + 2) out src consumed seen len L tail
      hfuel hco hdrop hgood hcl
  exact ⟨out2, src2, by rw [headerLoop, heq]; rfl, h1, h2, h3, h4⟩

theorem drop_append_cons (A B : List Nat) (x : Nat) :
    (A ++ x :: B).drop (A.length + 1) = B := by
  rw [show A ++ x :: B = (A ++ [x]) ++ B from by simp]
  rw [List.drop_append_of_le_length (by simp)]
  rw [List.drop_eq_nil_of_le (by simp)]
  rfl

theorem warcHeaderBytes_len : warcHeaderBytes.length = 8 := by decide

theorem totalLen_ge (r : WRecord) : 16 ≤ totalLen r := by
  rw [totalLen, hdrBytes]
  simp only [List.length_append, List.length_cons, List.length_nil,
    warcHeaderBytes_len]
  omega

/-- A serialized record passes the trailing `CRLF CRLF` check. -/
theorem checkCRLF_ser (r : WRecord) : checkCRLF (serRecord r) = some true := by
  have hdec4 : serRecord r = (hdrBytes r ++ r.body) ++ [13, 10, 13, 10] := by
    simp [serRecord]
  have hge : 4 ≤ (serRecord r).length := by
    rw [hdec4]
    simp only [List.length_append, List.length_cons, List.length_nil]
    omega
  rw [checkCRLF, if_neg (by omega)]
  rw [hdec4]
  have hsub : ((hdrBytes r ++ r.body) ++ [13, 10, 13, 10]).length - 4
      = (hdrBytes r ++ r.body).length := by
    simp only [List.length_append, List.length_cons, List.length_nil]
    omega
  rw [hsub, List.drop_left]
  simp

/-- `WARCReader::Read` on a well-formed record within the size limit:
returns the record verbatim with `skipped = 0`, leaving the reader
positioned exactly after it. -/
theorem warcReadT_wf (r : WRecord) (rest overhang src : List Nat) (limit : Nat)
    (hwf : wfRecord r) (hsplit : overhang ++ src = serRecord r ++ rest)
    (hlimit : totalLen r ≤ limit) :
    ∃ over' src', warcReadT overhang src limit
        = .ok (some (⟨0, serRecord r⟩, .normal, over', src')) ∧
      over' ++ src' = rest := by
  obtain ⟨hgood, hcount, hparse, hsize⟩ := hwf
  -- decompose the stream around the first newline
  have hdec : overhang ++ src
      = (warcHeaderBytes ++ [13]) ++ 10 ::
        (hdrLinesBytes r.headers ++ 13 :: 10 ::
          (r.body ++ ([13, 10, 13, 10] ++ rest))) := by
    rw [hsplit, serRecord, hdrBytes]
    simp
  obtain ⟨out1, src1, heq1, hjoin1, hc11, hc12, hc13⟩ :=
    hline_spec overhang src 0 0 (warcHeaderBytes ++ [13]) _ (le_refl _)
      (Nat.zero_le _) (by rw [List.drop_zero]; exact hdec) (by decide) (by omega)
  have hstrip1 : stripCR (warcHeaderBytes ++ [13]) = warcHeaderBytes :=
    stripCR_concat _
  have hlen1 : (warcHeaderBytes ++ [13]).length = 9 := by decide
  -- the header lines
  have hdrop2 : (out1 ++ src1).drop (0 + (warcHeaderBytes ++ [13]).length + 1)
      = hdrLinesBytes r.headers ++ 13 :: 10 ::
        (r.body ++ ([13, 10, 13, 10] ++ rest)) := by
    rw [hjoin1]
    simp only [Nat.zero_add]
    rw [hdec]
    exact drop_append_cons _ _ _
  obtain ⟨out2, src2, heq2, hjoin2, hc21, hc22, hc23⟩ :=
    headerLoop_spec r.headers out1 src1 (0 + (warcHeaderBytes ++ [13]).length + 1)
      false 0 r.body.length _ (by omega) hdrop2 hgood
      (by simp only [Bool.false_eq_true, if_false, ite_false]; exact ⟨hcount, hparse⟩)
  -- names for the header length
  have hconsumed2 : 0 + (warcHeaderBytes ++ [13]).length + 1
      + (hdrLinesBytes r.headers).length + 2 = (hdrBytes r).length := by
    rw [hdrBytes]
    simp only [List.length_append, List.length_cons, List.length_nil,
      warcHeaderBytes_len, Nat.zero_add]
  have htotal_eq : (hdrBytes r).length + r.body.length + 4 = totalLen r := rfl
  have htotal_ser : (serRecord r).length = totalLen r := serRecord_length r
  have hmod : (((hdrBytes r).length + r.body.length + 4) % kSizeT) = totalLen r := by
    rw [htotal_eq]
    exact Nat.mod_eq_of_lt hsize
  have hjoin12 : out2 ++ src2 = serRecord r ++ rest := by
    rw [hjoin2, hjoin1, hsplit]
  -- now walk through warcReadT
  rw [warcReadT]
  simp only [heq1, hstrip1, heq2, ne_eq, not_true_eq_false, if_false,
    Bool.false_eq_true, ite_false, Bool.true_eq_false, hconsumed2, hmod]
  by_cases hbr : totalLen r < out2.length
  · -- surplus branch: the whole record is already in the scratch buffer
    rw [if_pos hbr]
    have hrec : out2.take (totalLen r) = serRecord r := by
      rw [← List.take_append_of_le_length (le_of_lt hbr), hjoin12,
          List.take_left' htotal_ser]
    have hcrlf : checkCRLF (out2.take (totalLen r)) = some true := by
      rw [hrec]
      exact checkCRLF_ser r
    rw [hcrlf]
    refine ⟨out2.drop (totalLen r), src2, by rw [hrec], ?_⟩
    rw [← List.drop_append_of_le_length (le_of_lt hbr), hjoin12,
        List.drop_left' htotal_ser]
  · -- exact-read branch
    rw [if_neg hbr]
    rw [if_neg (by omega)]
    push_neg at hbr
    have hsrc2 : totalLen r - out2.length ≤ src2.length := by
      have : (out2 ++ src2).length = (serRecord r ++ rest).length := by rw [hjoin12]
      simp only [List.length_append] at this
      rw [htotal_ser] at this
      omega
    rw [readExactF_ok (totalLen r + 1) out2 (totalLen r) src2 (by omega) hbr hsrc2]
    have hrec : out2 ++ src2.take (totalLen r - out2.length) = serRecord r := by
      have h1 : (out2 ++ src2).take (out2.length + (totalLen r - out2.length))
          = out2 ++ src2.take (totalLen r - out2.length) :=
        List.take_append _
      have h2 : out2.length + (totalLen r - out2.length) = totalLen r := by omega
      rw [h2] at h1
      rw [← h1, hjoin12, List.take_left' htotal_ser]
    have hsrc3 : src2.drop (totalLen r - out2.length) = rest := by
      have h1 : (out2 ++ src2).drop (out2.length + (totalLen r - out2.length))
          = src2.drop (totalLen r - out2.length) :=
        List.drop_append _
      have h2 : out2.length + (totalLen r - out2.length) = totalLen r := by omega
      rw [h2] at h1
      rw [← h1, hjoin12, List.drop_left' htotal_ser]
    rw [hrec]
    simp only [checkCRLF_ser r]
    refine ⟨[], src2.drop (totalLen r - out2.length), rfl, ?_⟩
    rw [List.nil_append, hsrc3]

/-- Tag-erased version of `warcReadT_wf`. -/
theorem warcRead_wf (r : WRecord) (rest overhang src : List Nat) (limit : Nat)
    (hwf : wfRecord r) (hsplit : overhang ++ src = serRecord r ++ rest)
    (hlimit : totalLen r ≤ limit) :
    ∃ over' src', warcRead overhang src limit
        = .ok (some (⟨0, serRecord r⟩, over', src')) ∧
      over' ++ src' = rest := by
  obtain ⟨over', src', heq, hrest⟩ := warcReadT_wf r rest overhang src limit hwf hsplit hlimit
  exact ⟨over', src', by rw [warcRead, heq], hrest⟩

/-- Reading a whole stream of well-formed records: each comes back
verbatim with `skipped = 0`, in order, and the reader then reports
end-of-stream (`warcList` terminates with exactly one failing `Read`). -/
theorem warcList_wf :
    ∀ (rs : List WRecord) (overhang src : List Nat) (limit : Nat),
    (∀ r ∈ rs, wfRecord r ∧ totalLen r ≤ limit) →
    overhang ++ src = (rs.map serRecord).flatten →
    warcList (rs.length + 1) overhang src limit
      = some (.ok (rs.map fun r => ⟨0, serRecord r⟩)) := by
  intro rs
  induction rs with
  | nil =>
    intro overhang src limit _ hsplit
    simp only [List.map_nil, List.flatten_nil] at hsplit
    obtain ⟨ho, hs⟩ := List.append_eq_nil.mp hsplit
    subst ho
    subst hs
    rfl
  | cons r rs ih =>
    intro overhang src limit hwf hsplit
    have hsplit' : overhang ++ src = serRecord r ++ (rs.map serRecord).flatten := by
      rw [hsplit]
      simp
    obtain ⟨over', src', heq, hrest⟩ :=
      warcRead_wf r ((rs.map serRecord).flatten) overhang src limit
        (hwf r (by simp)).1 hsplit' (hwf r (by simp)).2
    have hih := ih over' src' limit (fun x hx => hwf x (by simp [hx])) hrest
    simp only [List.length_cons]
    rw [warcList]
    simp only [heq, hih, List.map_cons]

theorem mapSkip_skipRecord_inv {out src : List Nat} {rec : Record} {tag : RTag}
    {over src' : List Nat}
    (h : mapSkip (skipRecord out src) = .ok (some (rec, tag, over, src'))) :
    tag = .resync ∧ rec.str = [] := by
  rw [skipRecord] at h
  by_cases ho : out.isEmpty
  · rw [if_pos ho] at h
    simp [mapSkip] at h
  · rw [if_neg ho] at h
    rcases hsl : skipRecordLoopF (src.length + 2) (out.drop 1) src 0 with _ | res
    · rw [hsl] at h
      simp [mapSkip] at h
    · rw [hsl] at h
      rcases res with e | trip
      · simp [mapSkip] at h
      · obtain ⟨sk, ov, s⟩ := trip
        simp only [mapSkip, Except.ok.injEq, Option.some.injEq, Prod.mk.injEq] at h
        obtain ⟨h1, h2, _, _⟩ := h
        exact ⟨h2.symm, by rw [← h1]⟩

theorem checkCRLF_true_len {record : List Nat} (h : checkCRLF record = some true) :
    4 ≤ record.length := by
  rw [checkCRLF] at h
  split at h
  · exact absurd h (by simp)
  · omega

/-- C10 amended record invariant: a successful `Read` from the normal path
has a non-empty body and `skipped = 0`; the oversize path has an empty
body and non-zero `skipped`; a resynchronized read has an empty body but
(contrary to the claim) its `skipped` can be zero. -/
theorem claim_C10_invariant_amended (overhang src : List Nat) (limit : Nat)
    (rec : Record) (tag : RTag) (over' src' : List Nat)
    (h : warcReadT overhang src limit = .ok (some (rec, tag, over', src'))) :
    (tag = .normal → rec.str ≠ [] ∧ rec.skipped = 0) ∧
    (tag = .oversize → rec.str = [] ∧ rec.skipped ≠ 0) ∧
    (tag = .resync → rec.str = []) := by
  rw [warcReadT] at h
  cases hl : hline overhang src 0 0 with
  | eofOk => simp only [hl] at h; simp at h
  | eofErr => simp only [hl] at h; simp at h
  | line l out1 src1 c1 =>
    simp only [hl] at h
    by_cases hne : l = warcHeaderBytes
    · rw [if_neg (by simp [hne])] at h
      cases hh : headerLoop out1 src1 c1 false 0 with
      | warcErr out2 src2 =>
        simp only [hh] at h
        obtain ⟨ht, hs⟩ := mapSkip_skipRecord_inv h
        subst ht
        exact ⟨fun hx => absurd hx (by decide), fun hx => absurd hx (by decide), fun _ => hs⟩
      | eofErr => simp only [hh] at h; simp at h
      | done out2 src2 c2 seen len =>
        simp only [hh] at h
        by_cases hs : seen = false
        · rw [if_pos hs] at h
          obtain ⟨ht, hstr⟩ := mapSkip_skipRecord_inv h
          subst ht
          exact ⟨fun hx => absurd hx (by decide), fun hx => absurd hx (by decide), fun _ => hstr⟩
        · rw [if_neg hs] at h
          by_cases hb1 : (c2 + len + 4) % kSizeT < out2.length
          · rw [if_pos hb1] at h
            rcases hc : checkCRLF (out2.take ((c2 + len + 4) % kSizeT)) with _ | b <;>
              simp only [hc] at h
            · simp at h
            · cases b with
              | false =>
                obtain ⟨ht, hstr⟩ := mapSkip_skipRecord_inv h
                subst ht
                exact ⟨fun hx => absurd hx (by decide), fun hx => absurd hx (by decide), fun _ => hstr⟩
              | true =>
                simp only [Except.ok.injEq, Option.some.injEq, Prod.mk.injEq] at h
                obtain ⟨h1, h2, _, _⟩ := h
                subst h2
                have hlen := checkCRLF_true_len hc
                have hstr : rec.str = out2.take ((c2 + len + 4) % kSizeT) := by
                  rw [← h1]
                have hsk : rec.skipped = 0 := by rw [← h1]
                refine ⟨fun _ => ⟨?_, hsk⟩, fun hx => absurd hx (by decide),
                  fun hx => absurd hx (by decide)⟩
                rw [hstr]
                intro hnil
                rw [hnil] at hlen
                simp at hlen
          · rw [if_neg hb1] at h
            by_cases hb2 : (c2 + len + 4) % kSizeT > limit
            · rw [if_pos hb2] at h
              rcases hd : readDiscardF ((c2 + len + 4) % kSizeT + 1) out2.length
                  ((c2 + len + 4) % kSizeT) src2 with _ | res <;>
                simp only [hd] at h
              · simp at h
              · rcases res with e | src3
                · simp at h
                · simp only [Except.ok.injEq, Option.some.injEq, Prod.mk.injEq] at h
                  obtain ⟨h1, h2, _, _⟩ := h
                  subst h2
                  have hstr : rec.str = [] := by rw [← h1]
                  have hsk : rec.skipped = (c2 + len + 4) % kSizeT := by rw [← h1]
                  refine ⟨fun hx => absurd hx (by decide), fun _ => ⟨hstr, ?_⟩,
                    fun hx => absurd hx (by decide)⟩
                  rw [hsk]
                  omega
            · rw [if_neg hb2] at h
              rcases he : readExactF ((c2 + len + 4) % kSizeT + 1) out2
                  ((c2 + len + 4) % kSizeT) src2 with _ | res <;>
                simp only [he] at h
              · simp at h
              · rcases res with e | pair
                · simp at h
                · obtain ⟨record, src3⟩ := pair
                  rcases hc : checkCRLF record with _ | b <;> simp only [hc] at h
                  · simp at h
                  · cases b with
                    | false =>
                      obtain ⟨ht, hstr⟩ := mapSkip_skipRecord_inv h
                      subst ht
                      exact ⟨fun hx => absurd hx (by decide),
                        fun hx => absurd hx (by decide), fun _ => hstr⟩
                    | true =>
                      simp only [Except.ok.injEq, Option.some.injEq, Prod.mk.injEq] at h
                      obtain ⟨h1, h2, _, _⟩ := h
                      subst h2
                      have hlen := checkCRLF_true_len hc
                      have hstr : rec.str = record := by rw [← h1]
                      have hsk : rec.skipped = 0 := by rw [← h1]
                      refine ⟨fun _ => ⟨?_, hsk⟩, fun hx => absurd hx (by decide),
                        fun hx => absurd hx (by decide)⟩
                      rw [hstr]
                      intro hnil
                      rw [hnil] at hlen
                      simp at hlen
    · rw [if_pos (by simp [hne])] at h
      obtain ⟨ht, hstr⟩ := mapSkip_skipRecord_inv h
      subst ht
      exact ⟨fun hx => absurd hx (by decide), fun hx => absurd hx (by decide), fun _ => hstr⟩

/-- Witness for the amended C10 invariant at a concrete resynchronized
read. -/
theorem claim_C10_invariant_amended_witness :
    ((RTag.resync = RTag.normal →
        Record.str ⟨5, []⟩ ≠ [] ∧ Record.skipped ⟨5, []⟩ = 0) ∧
     (RTag.resync = RTag.oversize →
        Record.str ⟨5, []⟩ = [] ∧ Record.skipped ⟨5, []⟩ ≠ 0) ∧
     (RTag.resync = RTag.resync → Record.str ⟨5, []⟩ = [])) :=
  claim_C10_invariant_amended [] (strBytes "junk\r\n" ++ serRecord recB) 1000000
    ⟨5, []⟩ .resync (serRecord recB) [] (by rfl)

/-- C10 counterexample: a stream whose corrupted first header is followed
one byte later by a valid record makes `Read` return a record with an
empty body *and* `skipped = 0`, violating the claimed invariant. -/
theorem claim_C10_invariant_counterexample :
    warcRead [] (strBytes "xWARC/1.0\r\nContent-Length: 0\r\n\r\n\r\n\r\n") 1000000
      = .ok (some (⟨0, []⟩,
          strBytes "WARC/1.0\r\nContent-Length: 0\r\n\r\n\r\n\r\n", [])) := by
  rfl

/-- C2: for every stream of well-formed WARC records whose total lengths
are at most `size_limit`, successive `Read` calls return each record
verbatim (headers + body + trailing CRLF CRLF), in input order, each with
`skipped == 0`, and `Read` returns false exactly once, at the end. -/
theorem claim_C2_warc_verbatim (rs : List WRecord) (limit : Nat)
    (h : ∀ r ∈ rs, wfRecord r ∧ totalLen r ≤ limit) :
    warcList (rs.length + 1) [] ((rs.map serRecord).flatten) limit
      = some (.ok (rs.map fun r => ⟨0, serRecord r⟩)) :=
  warcList_wf rs [] ((rs.map serRecord).flatten) limit h rfl

/-- Witness: two concrete records round-trip through the reader. -/
theorem claim_C2_warc_verbatim_witness :
    warcList 3 []
      (((([⟨[strBytes "Content-Length: 5"], strBytes "hello"⟩,
           ⟨[strBytes "Foo: bar", strBytes "Content-Length: 2"], strBytes "AB"⟩]
          : List WRecord).map serRecord).flatten)) 1000000
      = some (.ok [⟨0, serRecord ⟨[strBytes "Content-Length: 5"], strBytes "hello"⟩⟩,
                   ⟨0, serRecord ⟨[strBytes "Foo: bar", strBytes "Content-Length: 2"],
                       strBytes "AB"⟩⟩]) := by
  exact claim_C2_warc_verbatim
    [⟨[strBytes "Content-Length: 5"], strBytes "hello"⟩,
     ⟨[strBytes "Foo: bar", strBytes "Content-Length: 2"], strBytes "AB"⟩]
    1000000 (by decide)

/-- C5 counterexample: a record whose total length exceeds the size limit
but is already wholly buffered after header parsing is returned in full on
the normal path with nothing discarded — `Read` checks the surplus branch
(`total_length < out.str.size()`) before the oversize branch. -/
theorem claim_C5_oversize_counterexample :
    totalLen recB > 10 ∧
    warcReadT [] (serRecord recB ++ serRecord recB) 10
      = .ok (some (⟨0, serRecord recB⟩, .normal, serRecord recB, [])) :=
  ⟨by decide, by rfl⟩

/-- C5 amended: when the record's total length exceeds the size limit AND
the record cannot already be wholly buffered (the carried overhang is no
longer than the record and the header block plus the 4095-byte scratch
growth fits inside the record), `Read` discards the payload and returns an
empty body with `skipped = total_length` and the oversize tag, leaving the
stream positioned after the record. -/
theorem claim_C5_oversize_amended (r : WRecord) (junk rest overhang src : List Nat)
    (limit : Nat) (hwf : wfRecord r)
    (hjunk : junk.length = r.body.length + 4)
    (hsplit : overhang ++ src = hdrBytes r ++ junk ++ rest)
    (hlimit : totalLen r > limit)
    (hover : overhang.length ≤ totalLen r)
    (hhdr : (hdrBytes r).length + 4095 ≤ totalLen r) :
    warcReadT overhang src limit
      = .ok (some (⟨totalLen r, []⟩, .oversize, [], rest)) := by
  obtain ⟨hgood, hcount, hparse, hsize⟩ := hwf
  have hdec : overhang ++ src
      = (warcHeaderBytes ++ [13]) ++ 10 ::
        (hdrLinesBytes r.headers ++ 13 :: 10 :: (junk ++ rest)) := by
    rw [hsplit, hdrBytes]
    simp
  obtain ⟨out1, src1, heq1, hjoin1, hc11, hc12, hc13⟩ :=
    hline_spec overhang src 0 0 (warcHeaderBytes ++ [13]) _ (le_refl _)
      (Nat.zero_le _) (by rw [List.drop_zero]; exact hdec) (by decide) (by omega)
  have hstrip1 : stripCR (warcHeaderBytes ++ [13]) = warcHeaderBytes :=
    stripCR_concat _
  have hdrop2 : (out1 ++ src1).drop (0 + (warcHeaderBytes ++ [13]).length + 1)
      = hdrLinesBytes r.headers ++ 13 :: 10 :: (junk ++ rest) := by
    rw [hjoin1]
    simp only [Nat.zero_add]
    rw [hdec]
    exact drop_append_cons _ _ _
  obtain ⟨out2, src2, heq2, hjoin2, hc21, hc22, hc23⟩ :=
    headerLoop_spec r.headers out1 src1 (0 + (warcHeaderBytes ++ [13]).length + 1)
      false 0 r.body.length _ (by omega) hdrop2 hgood
      (by simp only [Bool.false_eq_true, if_false, ite_false]; exact ⟨hcount, hparse⟩)
  have hconsumed2 : 0 + (warcHeaderBytes ++ [13]).length + 1
      + (hdrLinesBytes r.headers).length + 2 = (hdrBytes r).length := by
    rw [hdrBytes]
    simp only [List.length_append, List.length_cons, List.length_nil,
      warcHeaderBytes_len, Nat.zero_add]
  have htotal_eq : (hdrBytes r).length + r.body.length + 4 = totalLen r := rfl
  have hmod : (((hdrBytes r).length + r.body.length + 4) % kSizeT) = totalLen r := by
    rw [htotal_eq]
    exact Nat.mod_eq_of_lt hsize
  have hjoin12 : out2 ++ src2 = (hdrBytes r ++ junk) ++ rest := by
    rw [hjoin2, hjoin1, hsplit, List.append_assoc]
  have hhj : (hdrBytes r ++ junk).length = totalLen r := by
    simp only [List.length_append, hjunk]
    omega
  have hlen12 : out2.length + src2.length = totalLen r + rest.length := by
    have h := congrArg List.length hjoin12
    simp only [List.length_append] at h
    omega
  have hb12 : 12 ≤ (hdrBytes r).length := by
    rw [hdrBytes]
    simp only [List.length_append, List.length_cons, List.length_nil,
      warcHeaderBytes_len]
    omega
  have h9 : (warcHeaderBytes ++ [13]).length = 9 := by decide
  have hout2 : out2.length ≤ totalLen r := by omega
  rw [warcReadT]
  simp only [heq1, hstrip1, heq2, ne_eq, not_true_eq_false, if_false,
    Bool.false_eq_true, ite_false, Bool.true_eq_false, hconsumed2, hmod]
  rw [if_neg (by omega)]
  rw [if_pos hlimit]
  have hsrc2 : totalLen r - out2.length ≤ src2.length := by omega
  rw [readDiscardF_ok (totalLen r + 1) out2.length (totalLen r) src2
    (by omega) hout2 hsrc2]
  have hrest : src2.drop (totalLen r - out2.length) = rest := by
    have h1 : (out2 ++ src2).drop (out2.length + (totalLen r - out2.length))
        = src2.drop (totalLen r - out2.length) := List.drop_append _
    have h2 : out2.length + (totalLen r - out2.length) = totalLen r := by omega
    rw [h2] at h1
    rw [← h1, hjoin12, List.drop_left' hhj]
  rw [hrest]

/-- Witness for the amended C5 oversize behaviour at a concrete record of
4091 payload bytes against a limit of 100. -/
theorem claim_C5_oversize_amended_witness :
    warcReadT [] (hdrBytes recBig ++ List.replicate 4095 66 ++ []) 100
      = .ok (some (⟨totalLen recBig, []⟩, .oversize, [], [])) := by
  have hbody : recBig.body.length = 4091 := by
    rw [show recBig.body = List.replicate 4091 65 from rfl, List.length_replicate]
  have hhdrB : (hdrBytes recBig).length = 34 := by decide
  refine claim_C5_oversize_amended recBig (List.replicate 4095 66) [] []
    (hdrBytes recBig ++ List.replicate 4095 66 ++ []) 100
    ?_ ?_ rfl ?_ ?_ ?_
  · refine ⟨by decide, by decide, ?_, ?_⟩
    · intro l hl hcl
      have hh : recBig.headers = [strBytes "Content-Length: 4091"] := rfl
      rw [hh] at hl
      have hl' : l = strBytes "Content-Length: 4091" := List.mem_singleton.mp hl
      subst hl'
      rw [hbody]
      decide
    · rw [totalLen, hbody, hhdrB]
      decide
  · rw [hbody, List.length_replicate]
  · rw [totalLen, hbody, hhdrB]
    decide
  · exact Nat.zero_le _
  · rw [totalLen, hbody, hhdrB]

/-- C6 counterexample: end-of-file inside a record body is NOT recovered
by the resynchronization scan — `EndOfFileException` is not caught by
`Read`'s handler (which catches only `WARCReadException`), so a truncated
record propagates the failure to the caller instead of producing a skip
record. -/
theorem claim_C6_eof_counterexample :
    warcRead [] (strBytes "WARC/1.0\r\nContent-Length: 5\r\n\r\nhel") 1000000
      = .error .eof := by
  rfl

/-- C6 amended: the WARC framing errors that `Read` detects while parsing
the header — a first line that is not `WARC/1.0`, a duplicate
`Content-Length`, and a missing `Content-Length` — are recovered by the
header-resynchronization scan and yield a skip record (empty body)
followed by the next record intact; but a bad trailing CRLF CRLF hands
only the *stream* to the scan, so the surplus already buffered (here the
entire next record) is dropped and the reader runs into end-of-file. -/
theorem claim_C6_framing_amended :
    warcReadT [] (strBytes "junk\r\n" ++ serRecord recB) 1000000
      = .ok (some (⟨5, []⟩, .resync, serRecord recB, [])) ∧
    warcReadT []
        (strBytes "WARC/1.0\r\nContent-Length: 5\r\nContent-Length: 5\r\n\r\nhello\r\n\r\n"
          ++ serRecord recB) 1000000
      = .ok (some (⟨58, []⟩, .resync, serRecord recB, [])) ∧
    warcReadT [] (strBytes "WARC/1.0\r\nFoo: bar\r\n\r\n" ++ serRecord recB) 1000000
      = .ok (some (⟨21, []⟩, .resync, serRecord recB, [])) ∧
    warcReadT [] (strBytes "WARC/1.0\r\nContent-Length: 5\r\n\r\nhelloXXXX"
        ++ serRecord recB) 1000000
      = .error .eof := by
  exact ⟨rfl, rfl, rfl, rfl⟩

theorem hline_nil (src a b : List Nat) (hdec : src = a ++ 10 :: b)
    (ha : ¬ 10 ∈ a) (hlen : src.length ≤ 4096) :
    hline [] src 0 0 = .line (stripCR a) src [] (a.length + 1) := by
  have hne' : src.isEmpty = false := by rw [hdec]; cases a <;> rfl
  rw [hline]
  simp only [hlineF, show findFrom ([] : List Nat) 0 = none from rfl, hne',
    Bool.false_eq_true, if_false, List.nil_append, List.length_nil]
  rw [List.take_of_length_le hlen, List.drop_eq_nil_of_le hlen]
  have hs1 : ∃ n, src.length = n + 1 := by
    rw [hdec]; exact ⟨(a ++ 10 :: b).length - 1, by simp; omega⟩
  obtain ⟨n, hn⟩ := hs1
  rw [hn]
  have hfind : findFrom src 0 = some (0 + a.length) :=
    findFrom_split (by rw [List.drop_zero]; exact hdec) ha
  simp only [hlineF, hfind, Nat.zero_add]
  have hslice : slice src 0 a.length = a := by
    rw [slice, List.drop_zero, Nat.sub_zero, hdec,
      List.take_append_of_le_length (le_refl _), List.take_length]
  rw [hslice]
  rfl

theorem findSub_first :
    ∀ (l : List Nat) (i : Nat) (pat : List Nat),
    pat.isPrefixOf (l.drop i) = true →
    (∀ j, j < i → pat.isPrefixOf (l.drop j) = false) →
    findSub pat l = some i := by
  intro l
  induction l with
  | nil =>
    intro i pat h hj
    cases i with
    | zero => simp only [findSub, List.drop_nil] at h ⊢; rw [if_pos h]
    | succ i' =>
      have h0 := hj 0 (Nat.succ_pos _)
      simp only [List.drop_nil] at h h0
      rw [h0] at h
      cases h
  | cons x rest ih =>
    intro i pat h hj
    cases i with
    | zero =>
      simp only [List.drop_zero] at h
      simp only [findSub, if_pos h]
    | succ i' =>
      have h0 := hj 0 (Nat.succ_pos _)
      simp only [List.drop_zero] at h0
      simp only [findSub, h0, Bool.false_eq_true, if_false]
      have hrec := ih i' pat h (fun j hjlt => hj (j + 1) (by omega))
      rw [hrec]
      rfl

theorem prefix_getElem? {p l : List Nat} (h : p <+: l) (i : Nat)
    (hi : i < p.length) : l[i]? = p[i]? := by
  obtain ⟨t, ht⟩ := h
  rw [← ht, List.getElem?_append_left hi]

theorem warc_prefix_ser (r : WRecord) : warcHeaderBytes <+: serRecord r := by
  rw [serRecord, hdrBytes]
  simp only [List.append_assoc]
  exact List.prefix_append _ _

theorem ser_head (r : WRecord) : (serRecord r)[0]? = some 87 := by
  have h := prefix_getElem? (warc_prefix_ser r) 0 (by decide)
  rw [h]
  rfl

theorem warc_span (G : List Nat) (r : WRecord)
    (hno : ∀ p, warcHeaderBytes.isPrefixOf (G.drop p) = false)
    (q : Nat) (hq : q < G.length) :
    warcHeaderBytes.isPrefixOf ((G ++ serRecord r).drop q) = false := by
  by_contra hcon
  have htrue : warcHeaderBytes.isPrefixOf ((G ++ serRecord r).drop q) = true := by
    revert hcon
    cases warcHeaderBytes.isPrefixOf ((G ++ serRecord r).drop q) <;> simp
  have hdropq : (G ++ serRecord r).drop q = G.drop q ++ serRecord r :=
    List.drop_append_of_le_length (le_of_lt hq)
  rw [hdropq] at htrue
  have hpre : warcHeaderBytes <+: G.drop q ++ serRecord r :=
    List.isPrefixOf_iff_prefix.mp htrue
  by_cases hk : 8 ≤ (G.drop q).length
  · have htake : (G.drop q ++ serRecord r).take 8 = (G.drop q).take 8 :=
      List.take_append_of_le_length hk
    have heq : warcHeaderBytes = (G.drop q).take 8 := by
      have h1 := List.prefix_iff_eq_take.mp hpre
      rw [warcHeaderBytes_len] at h1
      rw [h1, htake]
    have hpre2 : warcHeaderBytes <+: G.drop q := by
      rw [heq]
      exact List.take_prefix _ _
    have := List.isPrefixOf_iff_prefix.mpr hpre2
    rw [hno q] at this
    cases this
  · have hk1 : 1 ≤ (G.drop q).length := by
      rw [List.length_drop]
      omega
    set k := (G.drop q).length with hkdef
    have hik : k < warcHeaderBytes.length := by rw [warcHeaderBytes_len]; omega
    have h1 := prefix_getElem? hpre k hik
    have h2 : (G.drop q ++ serRecord r)[k]? = (serRecord r)[0]? := by
      rw [List.getElem?_append_right (le_refl _)]
      simp
    rw [h2, ser_head r] at h1
    have hk7 : k < 8 := by rw [warcHeaderBytes_len] at hik; omega
    interval_cases k
    · exact absurd h1 (by decide)
    · exact absurd h1 (by decide)
    · exact absurd h1 (by decide)
    · exact absurd h1 (by decide)
    · exact absurd h1 (by decide)
    · exact absurd h1 (by decide)
    · exact absurd h1 (by decide)

/-- Pinned first `Read`: from an empty overhang, a well-formed record
followed by more data, all fitting one 4096-byte refill, comes back
verbatim with exactly the trailing data as the new overhang. -/
theorem warcReadT_first (r : WRecord) (rest : List Nat) (limit : Nat)
    (hwf : wfRecord r) (hrest : 1 ≤ rest.length)
    (hlen : (serRecord r).length + rest.length ≤ 4096) :
    warcReadT [] (serRecord r ++ rest) limit
      = .ok (some (⟨0, serRecord r⟩, .normal, rest, [])) := by
  obtain ⟨hgood, hcount, hparse, hsize⟩ := hwf
  set S := serRecord r ++ rest with hS
  have hdec : S
      = (warcHeaderBytes ++ [13]) ++ 10 ::
        (hdrLinesBytes r.headers ++ 13 :: 10 ::
          (r.body ++ ([13, 10, 13, 10] ++ rest))) := by
    rw [hS, serRecord, hdrBytes]
    simp
  have hSlen : S.length ≤ 4096 := by
    rw [hS]
    simp only [List.length_append]
    omega
  have hline1 := hline_nil S (warcHeaderBytes ++ [13]) _ hdec (by decide) hSlen
  have hstrip1 : stripCR (warcHeaderBytes ++ [13]) = warcHeaderBytes :=
    stripCR_concat _
  have h9 : (warcHeaderBytes ++ [13]).length = 9 := by decide
  have htotal_ser : (serRecord r).length = totalLen r := serRecord_length r
  have htot16 : 16 ≤ totalLen r := totalLen_ge r
  have hdrop2 : (S ++ []).drop ((warcHeaderBytes ++ [13]).length + 1)
      = hdrLinesBytes r.headers ++ 13 :: 10 ::
        (r.body ++ ([13, 10, 13, 10] ++ rest)) := by
    rw [List.append_nil, hdec]
    exact drop_append_cons _ _ _
  obtain ⟨out2, src2, heq2, hjoin2, hc21, hc22, hc23⟩ :=
    headerLoop_spec r.headers S [] ((warcHeaderBytes ++ [13]).length + 1)
      false 0 r.body.length _
      (by
        rw [hS]
        simp only [List.length_append, warcHeaderBytes_len, List.length_cons,
          List.length_nil, htotal_ser]
        omega) hdrop2 hgood
      (by simp only [Bool.false_eq_true, if_false, ite_false]; exact ⟨hcount, hparse⟩)
  have hj : out2 ++ src2 = S := by rw [hjoin2, List.append_nil]
  have hlen2 : out2.length + src2.length = S.length := by
    have h := congrArg List.length hj
    simpa using h
  have hsrc2 : src2 = [] := by
    have h0 : src2.length = 0 := by omega
    exact List.eq_nil_of_length_eq_zero h0
  subst hsrc2
  rw [List.append_nil] at hj
  subst hj
  have hconsumed2 : (warcHeaderBytes ++ [13]).length + 1
      + (hdrLinesBytes r.headers).length + 2 = (hdrBytes r).length := by
    rw [hdrBytes]
    simp only [List.length_append, List.length_cons, List.length_nil,
      warcHeaderBytes_len, h9]
  have hmod : (((hdrBytes r).length + r.body.length + 4) % kSizeT) = totalLen r := by
    rw [show (hdrBytes r).length + r.body.length + 4 = totalLen r from rfl]
    exact Nat.mod_eq_of_lt hsize
  rw [warcReadT]
  simp only [hline1, hstrip1, heq2, ne_eq, not_true_eq_false, if_false,
    Bool.false_eq_true, ite_false, Bool.true_eq_false, hconsumed2, hmod]
  have hbr : totalLen r < S.length := by
    rw [hS]
    simp only [List.length_append]
    omega
  rw [if_pos hbr]
  have hrec : S.take (totalLen r) = serRecord r := by
    rw [hS]
    exact List.take_left' htotal_ser
  have hcrlf : checkCRLF (S.take (totalLen r)) = some true := by
    rw [hrec]
    exact checkCRLF_ser r
  rw [hcrlf, hrec]
  have hdropS : S.drop (totalLen r) = rest := by
    rw [hS]
    exact List.drop_left' htotal_ser
  rw [hdropS]

/-- Pinned resynchronizing `Read`: an overhang of garbage containing no
`WARC/1.0` occurrence, directly followed by a record, makes `SkipRecord`
discard the garbage, charging all but its first byte, and leaves the
record as the new overhang. -/
theorem warcReadT_resync (G : List Nat) (r : WRecord) (limit : Nat)
    (hg : 1 ≤ G.length)
    (hno : ∀ p, warcHeaderBytes.isPrefixOf (G.drop p) = false)
    (hsize : G.length < kSizeT) :
    warcReadT (G ++ serRecord r) [] limit
      = .ok (some (⟨G.length - 1, []⟩, .resync, serRecord r, [])) := by
  have h10 : (10 : Nat) ∈ G ++ serRecord r := by
    refine List.mem_append_right _ ?_
    rw [serRecord, hdrBytes]
    simp
  cases hf : findNL (G ++ serRecord r) with
  | none => exact absurd h10 (findNL_none_not_mem hf)
  | some m =>
  obtain ⟨a, b, hdec, hlen_a, hmem⟩ := findNL_decomp hf
  obtain ⟨out1, src1, heq1, hjoin1, hc11, hc12, hc13⟩ :=
    hline_spec (G ++ serRecord r) [] 0 0 a b (le_refl _) (Nat.zero_le _)
      (by rw [List.append_nil, List.drop_zero]; exact hdec) hmem (Nat.zero_le _)
  have hj : out1 ++ src1 = G ++ serRecord r := by rw [hjoin1, List.append_nil]
  have hlen1 : out1.length + src1.length = (G ++ serRecord r).length := by
    have h := congrArg List.length hj
    simpa using h
  have hsrc1 : src1 = [] := List.eq_nil_of_length_eq_zero (by omega)
  subst hsrc1
  rw [List.append_nil] at hj
  subst hj
  have hne : stripCR a ≠ warcHeaderBytes := by
    intro hcon
    have hpa : warcHeaderBytes <+: a := by
      rw [stripCR] at hcon
      by_cases hl : a.getLast? = some 13
      · rw [if_pos hl] at hcon
        rw [← hcon]
        exact List.dropLast_prefix a
      · rw [if_neg hl] at hcon
        rw [hcon]
    have hpre : warcHeaderBytes <+: (G ++ serRecord r).drop 0 := by
      rw [List.drop_zero, hdec]
      exact hpa.trans (List.prefix_append a (10 :: b))
    have htrue := List.isPrefixOf_iff_prefix.mpr hpre
    rw [warc_span G r hno 0 (by omega)] at htrue
    cases htrue
  have hout_ne : (G ++ serRecord r).isEmpty = false := by
    cases G with
    | nil => simp at hg
    | cons x xs => rfl
  have hb0 : (G ++ serRecord r).drop 1 = G.drop 1 ++ serRecord r :=
    List.drop_append_of_le_length hg
  have hdrop_ser : (G.drop 1 ++ serRecord r).drop (G.length - 1) = serRecord r := by
    apply List.drop_left'
    rw [List.length_drop]
  have hfind : findSub warcHeaderBytes (G.drop 1 ++ serRecord r)
      = some (G.length - 1) := by
    apply findSub_first
    · rw [hdrop_ser]
      exact List.isPrefixOf_iff_prefix.mpr (warc_prefix_ser r)
    · intro j hjlt
      have hdd : (G.drop 1 ++ serRecord r).drop j = (G ++ serRecord r).drop (j + 1) := by
        rw [← hb0, List.drop_drop, Nat.add_comm 1 j]
      rw [hdd]
      exact warc_span G r hno (j + 1) (by omega)
  have hmod : (G.length - 1) % kSizeT = G.length - 1 :=
    Nat.mod_eq_of_lt (by omega)
  rw [warcReadT]
  simp only [heq1]
  rw [if_pos hne]
  rw [skipRecord, if_neg (by simp [hout_ne])]
  simp only [List.length_nil, Nat.zero_add, skipRecordLoopF, hb0, hfind,
    hdrop_ser, hmod, mapSkip]

/-- C3 counterexample: two garbage bytes `"G\n"` between two well-formed
records produce a skip record with `skipped = 1 < 2` — `SkipRecord` never
counts the first scanned byte, so the claimed `skipped ≥ garbage length`
fails. -/
theorem claim_C3_garbage_skip_counterexample :
    warcList 4 [] (serRecord recA ++ strBytes "G\n" ++ serRecord recB) 1000000
      = some (.ok [⟨0, serRecord recA⟩, ⟨1, []⟩, ⟨0, serRecord recB⟩]) := by
  rfl

/-- C3 amended: garbage injected between two well-formed records (no
`WARC/1.0` occurrence inside the garbage, everything within one 4096-byte
refill) yields the first record normally, then a skip record with empty
body and `skipped = garbage length - 1` (not `≥ garbage length`: the first
discarded byte is never counted), then the second record normally. -/
theorem claim_C3_garbage_skip_amended (r1 r2 : WRecord) (G : List Nat) (limit : Nat)
    (hwf1 : wfRecord r1) (hwf2 : wfRecord r2) (hlim2 : totalLen r2 ≤ limit)
    (hg : 1 ≤ G.length)
    (hno : ∀ p, warcHeaderBytes.isPrefixOf (G.drop p) = false)
    (hfit : (serRecord r1).length + G.length + (serRecord r2).length ≤ 4096) :
    warcList 4 [] (serRecord r1 ++ (G ++ serRecord r2)) limit
      = some (.ok [⟨0, serRecord r1⟩, ⟨G.length - 1, []⟩, ⟨0, serRecord r2⟩]) := by
  have hk : (4096 : Nat) < kSizeT := by decide
  have h1 := warcReadT_first r1 (G ++ serRecord r2) limit hwf1
    (by simp only [List.length_append]; omega)
    (by simp only [List.length_append]; omega)
  have h2 := warcReadT_resync G r2 limit hg hno (by omega)
  obtain ⟨over3, src3, h3, hj3⟩ :=
    warcReadT_wf r2 [] (serRecord r2) [] limit hwf2 rfl hlim2
  obtain ⟨ho3, hs3⟩ := List.append_eq_nil.mp hj3
  subst ho3
  subst hs3
  have h1' : warcRead [] (serRecord r1 ++ (G ++ serRecord r2)) limit
      = .ok (some (⟨0, serRecord r1⟩, G ++ serRecord r2, [])) := by
    rw [warcRead, h1]
  have h2' : warcRead (G ++ serRecord r2) [] limit
      = .ok (some (⟨G.length - 1, []⟩, serRecord r2, [])) := by
    rw [warcRead, h2]
  have h3' : warcRead (serRecord r2) [] limit
      = .ok (some (⟨0, serRecord r2⟩, [], [])) := by
    rw [warcRead, h3]
  have w1 : warcList 1 [] [] limit = some (.ok []) := rfl
  have w2 : warcList 2 (serRecord r2) [] limit = some (.ok [⟨0, serRecord r2⟩]) := by
    show warcList (1 + 1) _ _ _ = _
    rw [warcList]
    simp only [h3', w1]
  have w3 : warcList 3 (G ++ serRecord r2) [] limit
      = some (.ok [⟨G.length - 1, []⟩, ⟨0, serRecord r2⟩]) := by
    show warcList (2 + 1) _ _ _ = _
    rw [warcList]
    simp only [h2', w2]
  show warcList (3 + 1) [] (serRecord r1 ++ (G ++ serRecord r2)) limit = _
  rw [warcList]
  simp only [h1', w3]

/-- Witness for the amended C3 at two concrete records separated by the
six garbage bytes `"ggggg\n"`. -/
theorem claim_C3_garbage_skip_amended_witness :
    warcList 4 []
        (serRecord recA ++ ([103, 103, 103, 103, 103, 10] ++ serRecord recB)) 1000000
      = some (.ok [⟨0, serRecord recA⟩, ⟨5, []⟩, ⟨0, serRecord recB⟩]) := by
  have h := claim_C3_garbage_skip_amended recA recB
    [103, 103, 103, 103, 103, 10] 1000000
    (by decide) (by decide) (by decide) (by decide)
    (fun p => by
      rcases Nat.lt_or_ge p 6 with hp | hp
      · interval_cases p <;> rfl
      · rw [List.drop_eq_nil_of_le (by simp; omega)]
        rfl)
    (by decide)
  exact h

theorem skipF_zero8 :
    ∀ (fuel : Nat) (raw skipped : Nat) (c : Codec),
    skipF fuel c (List.replicate 8 0) [] raw skipped = none := by
  intro fuel
  induction fuel with
  | zero => intro raw skipped c; rfl
  | succ fuel ih =>
    intro raw skipped c
    have h1 : (List.replicate 8 (0 : Nat)).isEmpty = false := by decide
    have h2 : findSub (magicOf .xz) (List.replicate 8 0) = none := by decide
    have h3 : (List.replicate 8 (0 : Nat)).drop 8 = [] := by decide
    have h4 : (List.replicate 8 (0 : Nat)).length = 8 := by decide
    simp only [skipF, h1, h2, h4, Bool.false_eq_true, if_false, Option.getD_none,
      h3, List.isEmpty_nil, if_true, Nat.sub_self, List.drop_zero,
      List.length_nil, Nat.min_zero, List.take_nil, List.append_nil,
      Nat.add_zero, List.drop_nil]
    exact ih (raw + min (kInputBuffer - 8) 0) (skipped + 8) c

/-- C7: `StreamCompressed::Skip` does NOT terminate on every stream — with
a buffer of 16 zero bytes and the file at end-of-file, no xz magic is ever
found, the refill keeps the last 8 bytes and reads 0 more, and the scan
loops on those same 8 bytes forever (no fuel suffices). -/
theorem claim_C7_skip_nonterminating :
    ∀ (fuel raw skipped : Nat) (c : Codec),
    skipF fuel c (List.replicate 16 0) [] raw skipped = none := by
  intro fuel
  cases fuel with
  | zero => intro raw skipped c; rfl
  | succ fuel =>
    intro raw skipped c
    have h1 : (List.replicate 16 (0 : Nat)).isEmpty = false := by decide
    have h2 : findSub (magicOf .xz) (List.replicate 16 0) = none := by decide
    have h3 : (List.replicate 16 (0 : Nat)).drop 16 = [] := by decide
    have h4 : (List.replicate 16 (0 : Nat)).length = 16 := by decide
    have h5 : (List.replicate 16 (0 : Nat)).drop (16 - 8) = List.replicate 8 0 := by
      decide
    simp only [skipF, h1, h2, h4, Bool.false_eq_true, if_false, Option.getD_none,
      h3, List.isEmpty_nil, if_true, h5, List.length_nil, Nat.min_zero,
      List.take_nil, List.append_nil, Nat.add_zero, List.drop_nil]
    exact skipF_zero8 fuel (raw + min (kInputBuffer - 8) 0) (skipped + 16) c

/-- C4 counterexample: jumping to offset 8 from position 0 leaves only 2
bytes buffered, so the factory reads 4 extra magic-sniffing bytes; the
return value — computed from `ReadCount` and the freed object's
`avail_in` after `ReplaceThis` — is 12, not `new_position - old_position
= 8`. -/
theorem claim_C4_skipto_counterexample :
    skipTo [8] .gz [0, 0, 0, 0, 0, 0, 0, 0, 31, 139] [5, 1, 2, 3, 4, 5] 10
      = .ok (12, ⟨14, [4, 5], .stream .gz [31, 139, 5, 1, 2, 3] [] [] false⟩) ∧
    ¬ (12 : Nat) = 8 - 0 := by
  refine ⟨?_, by decide⟩
  rfl

/-- C4 amended: `SkipTo` seeks to the first listed offset strictly beyond
the current position `ReadCount - avail_in`, and throws
`CompressedException` when no listed offset exceeds it (second
conjunct); when the target lies in the buffer with at least `kMagicSize`
bytes left beyond it, the factory tops nothing up and the returned count
equals `new_position - old_position` exactly.  (With fewer buffered
bytes the count additionally includes the factory's magic top-up: see
the counterexample.) -/
theorem claim_C4_skipto_amended (offsets offsets2 : List Nat) (c c2 : Codec)
    (inBuf fd : List Nat) (raw offset : Nat)
    (hfind : offsets.find? (fun o => decide (raw - inBuf.length < o)) = some offset)
    (hlt : offset < raw)
    (hin : inBuf.length ≤ raw)
    (hbuf : kMagicSize ≤ inBuf.length - (offset - (raw - inBuf.length)))
    (hdet : detectMagic (inBuf.drop (offset - (raw - inBuf.length))) = some c2)
    (hnone : ∀ o ∈ offsets2, o ≤ raw - inBuf.length) :
    skipTo offsets c inBuf fd raw
      = .ok (offset - (raw - inBuf.length),
          ⟨raw, fd, .stream c2 (inBuf.drop (offset - (raw - inBuf.length))) [] [] false⟩) ∧
    skipTo offsets2 c inBuf fd raw = .error .compressed := by
  refine ⟨?_, ?_⟩
  case refine_2 =>
    have hfnone : offsets2.find? (fun o => decide (raw - inBuf.length < o)) = none := by
      rw [List.find?_eq_none]
      intro o ho
      simpa using Nat.not_lt.mpr (hnone o ho)
    rw [skipTo]
    simp only [hfnone, Option.getD_none]
    simp
  have hpos := List.find?_some hfind
  simp only [decide_eq_true_eq] at hpos
  have hoff0 : ¬ offset = 0 := by omega
  have hdlen : (inBuf.drop (offset - (raw - inBuf.length))).length
      = inBuf.length - (offset - (raw - inBuf.length)) := List.length_drop _ _
  have hneed : kMagicSize - (inBuf.drop (offset - (raw - inBuf.length))).length = 0 := by
    rw [hdlen]
    omega
  rw [skipTo]
  simp only [hfind, Option.getD_some, if_neg hoff0, if_pos hlt]
  rw [readFactory]
  simp only [hneed, Nat.min_eq_left (Nat.zero_le _), List.take_zero,
    List.append_nil, List.drop_zero, Nat.add_zero]
  have hemp : (inBuf.drop (offset - (raw - inBuf.length))).isEmpty = false := by
    have : 6 ≤ (inBuf.drop (offset - (raw - inBuf.length))).length := by
      rw [hdlen]; exact hbuf
    cases hd : inBuf.drop (offset - (raw - inBuf.length)) with
    | nil => rw [hd] at this; simp at this
    | cons x xs => rfl
  simp only [hemp, Bool.false_eq_true, if_false, hdet]
  have hret : raw - (inBuf.drop (offset - (raw - inBuf.length))).length
      - (raw - inBuf.length) = offset - (raw - inBuf.length) := by
    rw [hdlen]
    omega
  rw [hret]

/-- Witness for the amended C4: jump from position 0 to offset 8 with 8
bytes (a gzip magic and more) still buffered past the target; the offset
list `[0]` has no entry beyond position 0 and throws. -/
theorem claim_C4_skipto_amended_witness :
    skipTo [8] .gz [0, 0, 0, 0, 0, 0, 0, 0, 31, 139, 1, 65, 0, 0, 0, 0] [] 16
      = .ok (8, ⟨16, [], .stream .gz [31, 139, 1, 65, 0, 0, 0, 0] [] [] false⟩) ∧
    skipTo [0] .gz [0, 0, 0, 0, 0, 0, 0, 0, 31, 139, 1, 65, 0, 0, 0, 0] [] 16
      = .error .compressed := by
  have h := claim_C4_skipto_amended [8] [0] .gz .gz
    [0, 0, 0, 0, 0, 0, 0, 0, 31, 139, 1, 65, 0, 0, 0, 0] [] 16 8
    (by decide) (by decide) (by decide) (by decide) (by decide) (by decide)
  exact h

theorem wireOf_length (m : Member) :
    (wireOf m).length = hdrLen m.codec + m.payload.length := by
  simp [wireOf, hdrLen]
  omega

theorem wire_shape (m : Member) (rest : List Nat) :
    wireOf m ++ rest
      = magicOf m.codec ++ m.payload.length :: (m.payload ++ rest) := by
  rw [wireOf]
  simp

theorem wire_getElem (m : Member) (rest : List Nat) :
    (wireOf m ++ rest)[hdrLen m.codec - 1]? = some m.payload.length := by
  rw [wire_shape, hdrLen, Nat.add_sub_cancel,
    List.getElem?_append_right (le_refl _), Nat.sub_self]
  exact List.getElem?_cons_zero

theorem wire_drop_hdr (m : Member) :
    (wireOf m).drop (hdrLen m.codec) = m.payload := by
  rw [wireOf, hdrLen]
  exact drop_append_cons _ _ _

theorem take_take_append (l rest : List Nat) (k n : Nat) (hk : n ≤ k)
    (hn : n ≤ l.length) : ((l ++ rest).take k).take n = l.take n := by
  rw [List.take_take, min_eq_left hk, List.take_append_of_le_length hn]

theorem detectMagic_wire (m : Member) (rest : List Nat) (k : Nat)
    (hk : (magicOf m.codec).length ≤ k) :
    detectMagic ((wireOf m ++ rest).take k) = some m.codec := by
  obtain ⟨c, p⟩ := m
  have hLlen : (magicOf c).length + 1 + (p ++ rest).length
      = (wireOf ⟨c, p⟩ ++ rest).length := by
    simp [wireOf]
    omega
  have hlen : ∀ n, n ≤ k → n ≤ (magicOf c).length →
      n ≤ ((wireOf ⟨c, p⟩ ++ rest).take k).length := by
    intro n h1 h2
    rw [List.length_take]
    exact le_min h1 (by omega)
  have htake : ∀ n, n ≤ k → n ≤ (magicOf c).length →
      ((wireOf ⟨c, p⟩ ++ rest).take k).take n = (magicOf c).take n := by
    intro n h1 h2
    rw [wire_shape]
    exact take_take_append _ _ _ _ h1 h2
  cases c with
  | gz =>
    have h2 := htake 2 (by simpa [magicOf] using hk) (by simp [magicOf])
    have hl2 := hlen 2 (by simpa [magicOf] using hk) (by simp [magicOf])
    rw [detectMagic, if_pos ⟨hl2, by rw [h2]; rfl⟩]
  | bz =>
    have hk' : 3 ≤ k := by simpa [magicOf] using hk
    have h2 := htake 2 (by omega) (by simp [magicOf])
    have h3 := htake 3 (by omega) (by simp [magicOf])
    have hl3 := hlen 3 (by omega) (by simp [magicOf])
    rw [detectMagic, if_neg (by rw [h2]; simp [magicOf]),
      if_pos ⟨hl3, by rw [h3]; rfl⟩]
  | xz =>
    have hk' : 6 ≤ k := by simpa [magicOf] using hk
    have h2 := htake 2 (by omega) (by simp [magicOf])
    have h3 := htake 3 (by omega) (by simp [magicOf])
    have h6 := htake 6 (by omega) (by simp [magicOf])
    have hl6 := hlen 6 (by omega) (by simp [magicOf])
    rw [detectMagic, if_neg (by rw [h2]; simp [magicOf]),
      if_neg (by rw [h3]; simp [magicOf]),
      if_pos ⟨hl6, by rw [h6]; rfl⟩]

/-- One `StreamCompressed::Read` over a single member: the loop consumes
the member's wire (refilling at most once — a member's wire is at most
262 bytes, so a single `kInputBuffer`-sized refill always completes the
current member), emits its payload, and reaches the `Z_STREAM_END`
replacement with the residual input joined to the remaining stream. -/
theorem streamRead (m : Member) (rest inBuf fd : List Nat) (raw fuel : Nat)
    (hwf : wfMember m)
    (hjoin : inBuf ++ fd = wireOf m ++ rest)
    (hmag : (magicOf m.codec).length ≤ inBuf.length) :
    ∃ inBuf2 fd2 raw2,
      streamLoopF (fuel + 2) m.codec inBuf [] [] false fd raw [] 256
        = streamEnd m.payload inBuf2 fd2 raw2 ∧
      inBuf2 ++ fd2 = rest ∧ fd2.length ≤ fd.length := by
  obtain ⟨hp1, hp255⟩ := hwf
  have hwl : (wireOf m).length = hdrLen m.codec + m.payload.length := wireOf_length m
  have hmagpos : 1 ≤ (magicOf m.codec).length := by cases m.codec <;> simp [magicOf]
  have hhdr1 : (magicOf m.codec).length + 1 = hdrLen m.codec := rfl
  have hinpos : 0 < inBuf.length := by omega
  have hne : inBuf.isEmpty = false := by
    cases inBuf with
    | nil => simp at hinpos
    | cons x xs => rfl
  have hjlen : inBuf.length + fd.length = (wireOf m).length + rest.length := by
    have h := congrArg List.length hjoin
    simpa using h
  have hgetJ : (inBuf ++ fd)[hdrLen m.codec - 1]? = some m.payload.length := by
    rw [hjoin]
    exact wire_getElem m rest
  have hget : hdrLen m.codec ≤ inBuf.length →
      inBuf.getD (hdrLen m.codec - 1) 0 = m.payload.length := by
    intro hh
    rw [List.getD_eq_getElem?_getD,
      show inBuf[hdrLen m.codec - 1]? = (inBuf ++ fd)[hdrLen m.codec - 1]? from
        (List.getElem?_append_left (by omega)).symm, hgetJ]
    rfl
  have hgetW : (wireOf m).getD (hdrLen m.codec - 1) 0 = m.payload.length := by
    have h1 := wire_getElem m []
    rw [List.append_nil] at h1
    rw [List.getD_eq_getElem?_getD, h1]
    rfl
  have hcondW : hdrLen m.codec ≤ (wireOf m).length ∧
      (wireOf m).length
        = hdrLen m.codec + (wireOf m).getD (hdrLen m.codec - 1) 0 := by
    refine ⟨by omega, ?_⟩
    rw [hgetW]
    omega
  have hpend : (wireOf m).drop (hdrLen m.codec) = m.payload := wire_drop_hdr m
  have hemin : min (256 - ([] : List Nat).length) m.payload.length
      = m.payload.length := by
    simp only [List.length_nil, Nat.sub_zero]
    omega
  by_cases hA : (wireOf m).length ≤ inBuf.length
  · -- the whole member already sits in the buffer
    have hhdr_le : hdrLen m.codec ≤ inBuf.length := by omega
    have htk : inBuf.take (wireOf m).length = wireOf m := by
      rw [show inBuf.take (wireOf m).length
            = (inBuf ++ fd).take (wireOf m).length from
          (List.take_append_of_le_length hA).symm, hjoin, List.take_left' rfl]
    have hdp : inBuf.drop (wireOf m).length ++ fd = rest := by
      rw [show inBuf.drop (wireOf m).length ++ fd
            = (inBuf ++ fd).drop (wireOf m).length from
          (List.drop_append_of_le_length hA).symm, hjoin, List.drop_left' rfl]
    have hwt : wireTarget m.codec [] inBuf = (wireOf m).length := by
      rw [wireTarget]
      simp only [List.nil_append, List.length_nil, Nat.sub_zero]
      rw [if_pos (by omega), hget hhdr_le]
      omega
    refine ⟨inBuf.drop (wireOf m).length, fd, raw, ?_, hdp, le_refl _⟩
    show streamLoopF ((fuel + 1) + 1) m.codec inBuf [] [] false fd raw [] 256 = _
    rw [streamLoopF]
    simp only [hne, Bool.false_eq_true, if_false, ite_false, Nat.add_zero,
      List.nil_append, hwt, Nat.min_eq_right hA, htk]
    rw [if_pos hcondW]
    simp only [hpend, hemin, List.take_length, List.drop_length,
      List.isEmpty_nil, if_true, List.nil_append]
  · -- the member continues past the buffer: one refill
    push_neg at hA
    have hfdpos : 0 < fd.length := by omega
    have hfdne : fd.isEmpty = false := by
      cases fd with
      | nil => simp at hfdpos
      | cons x xs => rfl
    have hwt1 : min inBuf.length (wireTarget m.codec [] inBuf) = inBuf.length := by
      rw [wireTarget]
      simp only [List.nil_append, List.length_nil, Nat.sub_zero]
      by_cases hknow : hdrLen m.codec ≤ inBuf.length
      · rw [if_pos hknow, hget hknow]
        exact Nat.min_eq_left (by omega)
      · rw [if_neg hknow]
        exact Nat.min_self _
    have hcondB : ¬ (hdrLen m.codec ≤ inBuf.length ∧
        inBuf.length = hdrLen m.codec + inBuf.getD (hdrLen m.codec - 1) 0) := by
      rintro ⟨h1, h2⟩
      rw [hget h1] at h2
      omega
    have hkib : kInputBuffer = 16384 := rfl
    have hhdr7 : hdrLen m.codec ≤ 7 := by cases m.codec <;> simp [hdrLen, magicOf]
    have hrfd : (wireOf m).length - inBuf.length ≤ fd.length := by omega
    have hrg : (wireOf m).length - inBuf.length ≤ min kInputBuffer fd.length := by
      omega
    have hglen : (fd.take (min kInputBuffer fd.length)).length
        = min kInputBuffer fd.length := by
      rw [List.length_take, Nat.min_eq_left (Nat.min_le_right _ _)]
    have htgne : (fd.take (min kInputBuffer fd.length)).isEmpty = false := by
      cases hcase : fd.take (min kInputBuffer fd.length) with
      | nil => rw [hcase] at hglen; simp at hglen; omega
      | cons x xs => rfl
    have hs2 : inBuf ++ fd.take (min kInputBuffer fd.length)
        = (inBuf ++ fd).take (inBuf.length + min kInputBuffer fd.length) :=
      (List.take_append _).symm
    have hwt2 : wireTarget m.codec inBuf (fd.take (min kInputBuffer fd.length))
        = (wireOf m).length - inBuf.length := by
      rw [wireTarget]
      rw [if_pos (by rw [List.length_append, hglen]; omega)]
      rw [List.getD_eq_getElem?_getD,
        show (inBuf ++ fd.take (min kInputBuffer fd.length))[hdrLen m.codec - 1]?
            = (inBuf ++ fd)[hdrLen m.codec - 1]? from by
          rw [hs2, List.getElem?_take, if_pos (by omega)],
        hgetJ]
      simp only [Option.getD_some]
      omega
    have httr : (fd.take (min kInputBuffer fd.length)).take
          ((wireOf m).length - inBuf.length)
        = fd.take ((wireOf m).length - inBuf.length) := by
      rw [List.take_take, Nat.min_eq_left hrg]
    have htk2 : inBuf ++ fd.take ((wireOf m).length - inBuf.length) = wireOf m := by
      have h1 : (inBuf ++ fd).take
            (inBuf.length + ((wireOf m).length - inBuf.length))
          = inBuf ++ fd.take ((wireOf m).length - inBuf.length) :=
        List.take_append _
      rw [show inBuf.length + ((wireOf m).length - inBuf.length)
            = (wireOf m).length from by omega] at h1
      rw [← h1, hjoin, List.take_left' rfl]
    have hdp2 : fd.drop ((wireOf m).length - inBuf.length) = rest := by
      have h1 : (inBuf ++ fd).drop
            (inBuf.length + ((wireOf m).length - inBuf.length))
          = fd.drop ((wireOf m).length - inBuf.length) :=
        List.drop_append _
      rw [show inBuf.length + ((wireOf m).length - inBuf.length)
            = (wireOf m).length from by omega] at h1
      rw [← h1, hjoin, List.drop_left' rfl]
    have hjoinB : (fd.take (min kInputBuffer fd.length)).drop
          ((wireOf m).length - inBuf.length)
        ++ fd.drop (min kInputBuffer fd.length)
        = fd.drop ((wireOf m).length - inBuf.length) := by
      have h1 : (fd.take (min kInputBuffer fd.length)).drop
            ((wireOf m).length - inBuf.length)
          = (fd.drop ((wireOf m).length - inBuf.length)).take
              (min kInputBuffer fd.length - ((wireOf m).length - inBuf.length)) :=
        List.drop_take _ _ _
      have h2 : (fd.drop ((wireOf m).length - inBuf.length)).drop
            (min kInputBuffer fd.length - ((wireOf m).length - inBuf.length))
          = fd.drop (min kInputBuffer fd.length) := by
        rw [List.drop_drop]
        congr 1
        omega
      rw [h1, ← h2, List.take_append_drop]
    refine ⟨(fd.take (min kInputBuffer fd.length)).drop
        ((wireOf m).length - inBuf.length),
      fd.drop (min kInputBuffer fd.length), raw + 0 + min kInputBuffer fd.length,
      ?_, by rw [hjoinB, hdp2], by rw [List.length_drop]; omega⟩
    show streamLoopF ((fuel + 1) + 1) m.codec inBuf [] [] false fd raw [] 256 = _
    rw [streamLoopF]
    simp only [hne, Bool.false_eq_true, if_false, ite_false, Nat.add_zero,
      List.nil_append, hwt1, List.take_length, List.drop_length]
    rw [if_neg hcondB]
    simp only [List.isEmpty_nil, ite_true, if_true]
    rw [streamLoopF]
    simp only [List.isEmpty_nil, if_true, ite_true, htgne, Bool.false_eq_true,
      if_false, ite_false, hwt2, hglen, Nat.min_eq_right hrg, httr, htk2]
    rw [if_pos hcondW]
    simp only [hpend, hemin, List.take_length, List.drop_length,
      List.isEmpty_nil, if_true, List.nil_append]

/-- Reading a chain of well-formed compressed members from any
factory entry (initial `Reset` or a mid-chain replacement): the factory
succeeds and repeated `Read`s concatenate the payloads. -/
theorem readChainAll :
    ∀ (ms : List Member), (∀ m ∈ ms, wfMember m) →
    ∀ (already fd : List Nat) (raw : Nat) (req : Bool),
    already ++ fd = wiresFlatten ms →
    ∃ rb fd1 raw1,
      readFactory fd raw already req = .ok (rb, fd1, raw1) ∧
      readAllF (ms.length + 1) ⟨raw1, fd1, rb⟩ 256
        = some (.ok (payloadsFlatten ms)) := by
  intro ms
  induction ms with
  | nil =>
    intro _ already fd raw req hsplit
    simp only [wiresFlatten, List.map_nil, List.flatten_nil] at hsplit
    obtain ⟨ha, hf⟩ := List.append_eq_nil.mp hsplit
    subst ha
    subst hf
    exact ⟨.complete, [], raw, rfl, rfl⟩
  | cons m ms ih =>
    intro hwf already fd raw req hsplit
    have hwfm : wfMember m := hwf m (by simp)
    obtain ⟨hp1, hp255⟩ := hwfm
    have hwl : (wireOf m).length = hdrLen m.codec + m.payload.length :=
      wireOf_length m
    have hmagpos : 1 ≤ (magicOf m.codec).length := by cases m.codec <;> simp [magicOf]
    have hmag6 : (magicOf m.codec).length ≤ 6 := by cases m.codec <;> simp [magicOf]
    have hhdr1 : (magicOf m.codec).length + 1 = hdrLen m.codec := rfl
    have hsplit' : already ++ fd = wireOf m ++ wiresFlatten ms := by
      rw [hsplit]
      simp [wiresFlatten]
    have hjl : already.length + fd.length
        = (wireOf m).length + (wiresFlatten ms).length := by
      have h := congrArg List.length hsplit'
      simpa using h
    have hkm : kMagicSize = 6 := rfl
    have hgotle : min (kMagicSize - already.length) fd.length ≤ fd.length :=
      Nat.min_le_right _ _
    have hhlen : (already ++ fd.take (min (kMagicSize - already.length) fd.length)).length
        = already.length + min (kMagicSize - already.length) fd.length := by
      rw [List.length_append, List.length_take, Nat.min_eq_left hgotle]
    have hkmag : (magicOf m.codec).length
        ≤ already.length + min (kMagicSize - already.length) fd.length := by
      omega
    have hne : (already ++ fd.take (min (kMagicSize - already.length) fd.length)).isEmpty
        = false := by
      cases hcase : already ++ fd.take (min (kMagicSize - already.length) fd.length) with
      | nil =>
        rw [hcase] at hhlen
        simp at hhlen
        omega
      | cons x xs => rfl
    have hheader : already ++ fd.take (min (kMagicSize - already.length) fd.length)
        = (wireOf m ++ wiresFlatten ms).take
            (already.length + min (kMagicSize - already.length) fd.length) := by
      rw [← hsplit']
      exact (List.take_append _).symm
    have hdetect : detectMagic
        (already ++ fd.take (min (kMagicSize - already.length) fd.length))
        = some m.codec := by
      rw [hheader]
      exact detectMagic_wire m _ _ hkmag
    have hfac : readFactory fd raw already req
        = .ok (.stream m.codec
            (already ++ fd.take (min (kMagicSize - already.length) fd.length)) [] [] false,
          fd.drop (min (kMagicSize - already.length) fd.length),
          raw + min (kMagicSize - already.length) fd.length) := by
      rw [readFactory]
      simp only [hne, Bool.false_eq_true, if_false, hdetect]
    have hjoin2 : (already ++ fd.take (min (kMagicSize - already.length) fd.length))
        ++ fd.drop (min (kMagicSize - already.length) fd.length)
        = wireOf m ++ wiresFlatten ms := by
      rw [List.append_assoc, List.take_append_drop]
      exact hsplit'
    have hmag2 : (magicOf m.codec).length
        ≤ (already ++ fd.take (min (kMagicSize - already.length) fd.length)).length := by
      rw [hhlen]
      exact hkmag
    obtain ⟨inBuf2, fd2, raw2, hloop, hjoin3, hfd3⟩ :=
      streamRead m (wiresFlatten ms)
        (already ++ fd.take (min (kMagicSize - already.length) fd.length))
        (fd.drop (min (kMagicSize - already.length) fd.length))
        (raw + min (kMagicSize - already.length) fd.length)
        (2 * ((already ++ fd.take (min (kMagicSize - already.length) fd.length)).length
          + ([] : List Nat).length
          + (fd.drop (min (kMagicSize - already.length) fd.length)).length) + 2)
        ⟨hp1, hp255⟩ hjoin2 hmag2
    have hloop' : streamLoopF
        (2 * ((already ++ fd.take (min (kMagicSize - already.length) fd.length)).length
          + ([] : List Nat).length
          + (fd.drop (min (kMagicSize - already.length) fd.length)).length) + 4)
        m.codec (already ++ fd.take (min (kMagicSize - already.length) fd.length))
        [] [] false (fd.drop (min (kMagicSize - already.length) fd.length))
        (raw + min (kMagicSize - already.length) fd.length) [] 256
        = streamEnd m.payload inBuf2 fd2 raw2 := hloop
    obtain ⟨rb1, fd1, raw1, hfac1, hall1⟩ :=
      ih (fun x hx => hwf x (by simp [hx])) inBuf2 fd2 raw2 true hjoin3
    have hpayne : m.payload.isEmpty = false := by
      cases hpc : m.payload with
      | nil => rw [hpc] at hp1; simp at hp1
      | cons b bs => rfl
    refine ⟨.stream m.codec
        (already ++ fd.take (min (kMagicSize - already.length) fd.length)) [] [] false,
      fd.drop (min (kMagicSize - already.length) fd.length),
      raw + min (kMagicSize - already.length) fd.length, hfac, ?_⟩
    cases hpc : m.payload with
    | nil => rw [hpc] at hp1; simp at hp1
    | cons b bs =>
      simp only [List.length_cons]
      rw [readAllF, rcReadF]
      simp only [hloop', streamEnd, hfac1, hpayne, Bool.false_eq_true, if_false,
        ite_false]
      simp only [hpc]
      rw [if_neg (show ¬(256 = 0) from by decide)]
      simp only [hall1]
      simp [payloadsFlatten, hpc]

/-- C1 counterexample: a gzip member followed by uncompressed bytes.  The
first `Read` decodes the member, but the `Z_STREAM_END` replacement runs
`ReadFactory` with `require_compressed = true` on the raw tail and throws
`CompressedException` — the decoded payload is lost and the concatenation
is never produced, refuting the claim for mixed chains. -/
theorem claim_C1_chained_counterexample :
    rcReset ([31, 139, 2, 72, 105] ++ [88, 89, 90])
      = .ok ⟨6, [89, 90], .stream .gz [31, 139, 2, 72, 105, 88] [] [] false⟩ ∧
    rcRead ⟨6, [89, 90], .stream .gz [31, 139, 2, 72, 105, 88] [] [] false⟩ 256
      = .error .compressed := by
  exact ⟨rfl, rfl⟩

/-- C1 amended: for every chain of well-formed *compressed* members
(gzip, bzip2 or xz, each with a non-empty payload), however long,
repeated `Read` until 0 yields exactly the concatenation of the decoded
payloads, and returns 0 only once all members are exhausted.  An
uncompressed member anywhere after the start breaks the chain
(`require_compressed`): see the counterexample. -/
theorem claim_C1_chained_amended (ms : List Member)
    (hwf : ∀ m ∈ ms, wfMember m) :
    ∃ s0, rcReset (wiresFlatten ms) = .ok s0 ∧
      readAllF (ms.length + 1) s0 256 = some (.ok (payloadsFlatten ms)) := by
  obtain ⟨rb, fd1, raw1, hfac, hall⟩ :=
    readChainAll ms hwf [] (wiresFlatten ms) 0 false rfl
  refine ⟨⟨raw1, fd1, rb⟩, ?_, hall⟩
  rw [rcReset, hfac]

/-- Witness for the amended C1 at a three-member gzip/xz/bzip2 chain. -/
theorem claim_C1_chained_amended_witness :
    ∃ s0, rcReset (wiresFlatten [⟨.gz, [1, 2, 3]⟩, ⟨.xz, [4, 5]⟩, ⟨.bz, [7, 7]⟩])
        = .ok s0 ∧
      readAllF 4 s0 256
        = some (.ok (payloadsFlatten [⟨.gz, [1, 2, 3]⟩, ⟨.xz, [4, 5]⟩, ⟨.bz, [7, 7]⟩])) := by
  exact claim_C1_chained_amended [⟨.gz, [1, 2, 3]⟩, ⟨.xz, [4, 5]⟩, ⟨.bz, [7, 7]⟩]
    (by decide)

end PreprocessModel
